import Mathlib

/-
Verification development for the single-instrument limit order book engine.

The embedding translates the C++ source faithfully:
- Price, Quantity, OrderId (int32_t) are modelled as Int; no arithmetic in the
  claims under scrutiny can overflow 32 bits on the inputs they quantify over,
  so unbounded integers are an exact model wherever the C++ is defined.
- std::map<Price, list<OrderPointer>, greater/less> is a list of
  (price, queue) pairs kept sorted by the map comparator; begin() is the head.
- std::list iterators stored in the order index are modelled by a per-insertion
  sequence number (nextSeq): each resting order carries the unique sequence
  number it was given when pushed, and the index stores it as the location.
- std::unordered_map<OrderId, OrderEntry> is an association list keyed by the
  order id; only contains/at/insert/erase are used by the source, never
  iteration order.
- Order::Fill throws on overfill; it is modelled as an Option, none being the
  thrown std::logic_error.
- the unbounded while loop of MatchOrders is modelled with explicit fuel; fuel
  sufficiency on the states the loop is actually invoked on is proved below.
-/

namespace OBModel

inductive Side where
| Buy
| Sell
deriving DecidableEq, Repr

inductive OrderType where
| FillAndKill
| GoodTillCancel
deriving DecidableEq, Repr

/-- Order: orderId_, orderType_, initialQuantity_, remainingQuantity_, price_, side_. -/
structure Order where
  orderId : Int
  orderType : OrderType
  initialQuantity : Int
  remainingQuantity : Int
  price : Int
  side : Side
deriving DecidableEq, Repr

/-- Order constructor: both quantity fields start at the submitted quantity. -/
def mkOrder (orderId : Int) (orderType : OrderType) (quantity : Int) (price : Int)
    (side : Side) : Order :=
  ⟨orderId, orderType, quantity, quantity, price, side⟩

/-- Order::isFilled: remaining quantity equals zero. -/
def Order.isFilled (o : Order) : Bool :=
  o.remainingQuantity == 0

/-- Order::Fill: throws (none) when quantity exceeds the remaining quantity,
otherwise decrements the remaining quantity. -/
def Order.Fill (o : Order) (quantity : Int) : Option Order :=
  if quantity > o.remainingQuantity then none
  else some { o with remainingQuantity := o.remainingQuantity - quantity }

/-- OrderModify: orderId_, side_, quantity_, price_. -/
structure OrderModify where
  orderId : Int
  side : Side
  quantity : Int
  price : Int
deriving DecidableEq, Repr

/-- OrderModify::ToOrderPointer: builds a fresh Order with the given type. -/
def OrderModify.ToOrderPointer (m : OrderModify) (orderType : OrderType) : Order :=
  mkOrder m.orderId orderType m.quantity m.price m.side

/-- TradeInfos: one leg of a trade. -/
structure TradeInfos where
  orderId : Int
  price : Int
  quantity : Int
deriving DecidableEq, Repr

/-- Trade: a bid leg paired with an ask leg. -/
structure Trade where
  bidTrade : TradeInfos
  askTrade : TradeInfos
deriving DecidableEq, Repr

/-- A resting order in a price-level queue: the unique sequence number handed
out at insertion (modelling the list iterator identity) and the order value. -/
abbrev Resting := Nat × Order

/-- A side of the book: price levels in the map comparator's order
(descending for bids, ascending for asks), each with its FIFO queue. -/
abbrev Levels := List (Int × List Resting)

/-- An entry of orders_: order id, the order value captured behind the shared
pointer, and the location (sequence number) of the element in its queue. Only
immutable fields of the stored order are ever read through the index by the
source, so storing the value is an exact model of the pointer. -/
abbrev IndexEntry := Int × Order × Nat

/-- OrderBook state: bids_, asks_, orders_, plus the sequence counter that
models iterator identity. -/
structure OrderBook where
  bids : Levels
  asks : Levels
  orders : List IndexEntry
  nextSeq : Nat
deriving DecidableEq, Repr

def emptyBook : OrderBook := ⟨[], [], [], 0⟩

/-- Lookup in orders_ by order id (unordered_map::at / find). -/
def lookupIndex : List IndexEntry → Int → Option (Order × Nat)
  | [], _ => none
  | (k, v) :: rest, orderId => if k = orderId then some v else lookupIndex rest orderId

/-- Membership test on orders_ (unordered_map::contains). -/
def containsIndex (idx : List IndexEntry) (orderId : Int) : Bool :=
  (lookupIndex idx orderId).isSome

/-- Erasure from orders_ by order id (unordered_map::erase). -/
def eraseIndex : List IndexEntry → Int → List IndexEntry
  | [], _ => []
  | (k, v) :: rest, orderId =>
      if k = orderId then eraseIndex rest orderId else (k, v) :: eraseIndex rest orderId

/-- Push an order at the back of the queue for its price, creating the level at
its sorted position when absent; cmp is the map comparator (greater for bids_,
less for asks_). Models map::operator[] followed by list::push_back. -/
def insertLevelBy (cmp : Int → Int → Bool) (price : Int) (r : Resting) : Levels → Levels
  | [] => [(price, [r])]
  | (p, q) :: rest =>
      if price = p then (p, q ++ [r]) :: rest
      else if cmp price p then (price, [r]) :: (p, q) :: rest
      else (p, q) :: insertLevelBy cmp price r rest

/-- Erase the queue element with the given location from the queue at the given
price, pruning the level when its queue becomes empty. Models
list::erase(location) followed by the emptiness check in CancelOrder. -/
def eraseFromLevels (price : Int) (seq : Nat) : Levels → Levels
  | [] => []
  | (p, q) :: rest =>
      if p = price then
        let q' := q.filter (fun r => r.1 ≠ seq)
        if q'.isEmpty then rest else (p, q') :: rest
      else (p, q) :: eraseFromLevels price seq rest

/-- Comparator of bids_: std::greater<Price>, best (largest) price first. -/
def bidCmp (a b : Int) : Bool := b < a

/-- Comparator of asks_: std::less<Price>, best (smallest) price first. -/
def askCmp (a b : Int) : Bool := a < b

/-- OrderBook::CanMatch. -/
def OrderBook.CanMatch (s : OrderBook) (side : Side) (price : Int) : Bool :=
  match side with
  | Side.Buy =>
      match s.asks with
      | [] => false
      | (bestAsks, _) :: _ => price ≥ bestAsks
  | Side.Sell =>
      match s.bids with
      | [] => false
      | (bestBids, _) :: _ => price ≤ bestBids

/-- OrderBook::CancelOrder. -/
def OrderBook.CancelOrder (s : OrderBook) (orderId : Int) : OrderBook :=
  match lookupIndex s.orders orderId with
  | none => s
  | some (o, location) =>
      let s₁ :=
        if o.side = Side.Buy then
          { s with bids := eraseFromLevels o.price location s.bids }
        else
          { s with asks := eraseFromLevels o.price location s.asks }
      { s₁ with orders := eraseIndex s₁.orders o.orderId }

/-- Result of the inner while loop of MatchOrders: the two best-level queues,
the order index, and the trades accumulated so far. -/
structure InnerResult where
  bidQueue : List Resting
  askQueue : List Resting
  index : List IndexEntry
  trades : List Trade
deriving DecidableEq, Repr

/-- Inner while loop of MatchOrders, with explicit fuel. Each iteration takes
the head of each queue, computes quantity = min of the remaining quantities,
fills both heads, pops each head that is filled (erasing it from the index),
and appends one Trade pairing the bid leg with the ask leg. The anonymous
fallback branch is the propagation of the overfill exception; it is proved
below to be unreachable because the computed quantity never exceeds either
remaining quantity. Fuel bq.length + aq.length + 1 is always sufficient
because every iteration pops at least one order. -/
def innerLoopF : Nat → List Resting → List Resting → List IndexEntry → List Trade → InnerResult
  | 0, bq, aq, idx, tr => ⟨bq, aq, idx, tr⟩
  | Nat.succ fuel, bq, aq, idx, tr =>
      match bq, aq with
      | (bseq, bo) :: bt, (aseq, ao) :: atl =>
          let quantity := min bo.remainingQuantity ao.remainingQuantity
          match bo.Fill quantity, ao.Fill quantity with
          | some bo', some ao' =>
              let bq' := if bo'.isFilled then bt else (bseq, bo') :: bt
              let idx₁ := if bo'.isFilled then eraseIndex idx bo'.orderId else idx
              let aq' := if ao'.isFilled then atl else (aseq, ao') :: atl
              let idx₂ := if ao'.isFilled then eraseIndex idx₁ ao'.orderId else idx₁
              let tr' := tr ++ [⟨⟨bo'.orderId, bo'.price, quantity⟩,
                                ⟨ao'.orderId, ao'.price, quantity⟩⟩]
              innerLoopF fuel bq' aq' idx₂ tr'
          | _, _ => ⟨bq, aq, idx, tr⟩
      | _, _ => ⟨bq, aq, idx, tr⟩

/-- End-of-match disposal of a remaining bid head, as written in src/src/main.cpp:
erase the head order's id from orders_ unconditionally, then call CancelOrder on
it only when its type is FillAndKill. -/
def OrderBook.disposeBid (s : OrderBook) : OrderBook :=
  match s.bids with
  | (_, r :: _) :: _ =>
      let s' := { s with orders := eraseIndex s.orders r.2.orderId }
      if r.2.orderType = OrderType.FillAndKill then s'.CancelOrder r.2.orderId else s'
  | _ => s

/-- End-of-match disposal of a remaining ask head, as written in src/src/main.cpp:
erase the head order's id from orders_ unconditionally, then call CancelOrder on
it unconditionally. -/
def OrderBook.disposeAsk (s : OrderBook) : OrderBook :=
  match s.asks with
  | (_, r :: _) :: _ =>
      let s' := { s with orders := eraseIndex s.orders r.2.orderId }
      s'.CancelOrder r.2.orderId
  | _ => s

/-- One body of the outer while loop of MatchOrders (src/src/main.cpp): run the
inner loop on the two best levels, prune a best level whose queue was emptied
(the source erases it at the moment it empties, which the inner loop then
immediately observes as its exit condition), then apply end-of-match disposal
on whichever side still has orders at its best level. -/
def OrderBook.matchBody (s : OrderBook) (tr : List Trade) : OrderBook × List Trade :=
  match s.bids, s.asks with
  | (bidPrice, bq) :: brest, (askPrice, aq) :: arest =>
      let r := innerLoopF (bq.length + aq.length + 1) bq aq s.orders tr
      let bids' := if r.bidQueue.isEmpty then brest else (bidPrice, r.bidQueue) :: brest
      let asks' := if r.askQueue.isEmpty then arest else (askPrice, r.askQueue) :: arest
      let s₁ : OrderBook := ⟨bids', asks', r.index, s.nextSeq⟩
      let s₂ := if r.bidQueue.isEmpty then s₁ else s₁.disposeBid
      let s₃ := if r.askQueue.isEmpty then s₂ else s₂.disposeAsk
      (s₃, r.trades)
  | _, _ => (s, tr)

/-- Outer while loop of MatchOrders with explicit fuel: break when a side is
empty or when the best bid price is below the best ask price, otherwise run the
body and loop. none means the fuel ran out before a break was reached. -/
def OrderBook.matchLoopF : Nat → OrderBook → List Trade → Option (List Trade × OrderBook)
  | 0, _, _ => none
  | Nat.succ fuel, s, tr =>
      match s.bids, s.asks with
      | (bidPrice, _) :: _, (askPrice, _) :: _ =>
          if bidPrice < askPrice then some (tr, s)
          else
            let r := s.matchBody tr
            OrderBook.matchLoopF fuel r.1 r.2
      | _, _ => some (tr, s)

/-- Number of price levels currently in the book. -/
def OrderBook.levelCount (s : OrderBook) : Nat :=
  s.bids.length + s.asks.length

/-- OrderBook::MatchOrders. Every completed outer iteration removes at least one
price level (proved below for the states the loop runs on), so levelCount + 1
fuel is sufficient; the fallback is never taken there. -/
def OrderBook.MatchOrders (s : OrderBook) : List Trade × OrderBook :=
  (OrderBook.matchLoopF (s.levelCount + 1) s []).getD ([], s)

/-- OrderBook::AddOrder. -/
def OrderBook.AddOrder (s : OrderBook) (o : Order) : List Trade × OrderBook :=
  if containsIndex s.orders o.orderId then ([], s)
  else if !s.CanMatch o.side o.price && (o.orderType == OrderType.FillAndKill) then ([], s)
  else
    let r : Resting := (s.nextSeq, o)
    let s₁ :=
      if o.side = Side.Buy then
        { s with bids := insertLevelBy bidCmp o.price r s.bids,
                 orders := (o.orderId, o, s.nextSeq) :: s.orders,
                 nextSeq := s.nextSeq + 1 }
      else
        { s with asks := insertLevelBy askCmp o.price r s.asks,
                 orders := (o.orderId, o, s.nextSeq) :: s.orders,
                 nextSeq := s.nextSeq + 1 }
    s₁.MatchOrders

/-- OrderBook::ModifyOrder: captures the existing order's type, cancels it,
resubmits through AddOrder discarding its returned trades, and returns the
trades of one more MatchOrders run. -/
def OrderBook.ModifyOrder (s : OrderBook) (m : OrderModify) : List Trade × OrderBook :=
  match lookupIndex s.orders m.orderId with
  | none => ([], s)
  | some (existingOrder, _) =>
      let s₁ := s.CancelOrder m.orderId
      let s₂ := (s₁.AddOrder (m.ToOrderPointer existingOrder.orderType)).2
      s₂.MatchOrders

/-
Second engine implementation, src/unnamed/part_001. Its Order, CanMatch,
AddOrder and CancelOrder are character-for-character the same as in
src/src/main.cpp and are shared above; its MatchOrders differs only in the
end-of-match disposal blocks, which erase the remaining head order's id from
orders_ and leave TODO comments instead of the CancelOrder calls. part_001 has
no ModifyOrder.
-/

/-- End-of-match disposal of a remaining bid head, as written in part_001:
erase the head order's id from orders_; nothing else (TODO in the source). -/
def OrderBook.disposeBidB (s : OrderBook) : OrderBook :=
  match s.bids with
  | (_, r :: _) :: _ => { s with orders := eraseIndex s.orders r.2.orderId }
  | _ => s

/-- End-of-match disposal of a remaining ask head, as written in part_001:
erase the head order's id from orders_; nothing else (TODO in the source). -/
def OrderBook.disposeAskB (s : OrderBook) : OrderBook :=
  match s.asks with
  | (_, r :: _) :: _ => { s with orders := eraseIndex s.orders r.2.orderId }
  | _ => s

/-- One body of the outer while loop of part_001's MatchOrders. -/
def OrderBook.matchBodyB (s : OrderBook) (tr : List Trade) : OrderBook × List Trade :=
  match s.bids, s.asks with
  | (bidPrice, bq) :: brest, (askPrice, aq) :: arest =>
      let r := innerLoopF (bq.length + aq.length + 1) bq aq s.orders tr
      let bids' := if r.bidQueue.isEmpty then brest else (bidPrice, r.bidQueue) :: brest
      let asks' := if r.askQueue.isEmpty then arest else (askPrice, r.askQueue) :: arest
      let s₁ : OrderBook := ⟨bids', asks', r.index, s.nextSeq⟩
      let s₂ := if r.bidQueue.isEmpty then s₁ else s₁.disposeBidB
      let s₃ := if r.askQueue.isEmpty then s₂ else s₂.disposeAskB
      (s₃, r.trades)
  | _, _ => (s, tr)

/-- Outer while loop of part_001's MatchOrders, with explicit fuel. -/
def OrderBook.matchLoopFB : Nat → OrderBook → List Trade → Option (List Trade × OrderBook)
  | 0, _, _ => none
  | Nat.succ fuel, s, tr =>
      match s.bids, s.asks with
      | (bidPrice, _) :: _, (askPrice, _) :: _ =>
          if bidPrice < askPrice then some (tr, s)
          else
            let r := s.matchBodyB tr
            OrderBook.matchLoopFB fuel r.1 r.2
      | _, _ => some (tr, s)

/-- part_001's OrderBook::MatchOrders. -/
def OrderBook.MatchOrdersB (s : OrderBook) : List Trade × OrderBook :=
  (OrderBook.matchLoopFB (s.levelCount + 1) s []).getD ([], s)

/-- part_001's OrderBook::AddOrder (same text as main.cpp's, calling its own
MatchOrders). -/
def OrderBook.AddOrderB (s : OrderBook) (o : Order) : List Trade × OrderBook :=
  if containsIndex s.orders o.orderId then ([], s)
  else if !s.CanMatch o.side o.price && (o.orderType == OrderType.FillAndKill) then ([], s)
  else
    let r : Resting := (s.nextSeq, o)
    let s₁ :=
      if o.side = Side.Buy then
        { s with bids := insertLevelBy bidCmp o.price r s.bids,
                 orders := (o.orderId, o, s.nextSeq) :: s.orders,
                 nextSeq := s.nextSeq + 1 }
      else
        { s with asks := insertLevelBy askCmp o.price r s.asks,
                 orders := (o.orderId, o, s.nextSeq) :: s.orders,
                 nextSeq := s.nextSeq + 1 }
    s₁.MatchOrdersB

/-
Call sequences. Op covers the full public mutating interface of main.cpp;
BookOp covers the interface common to both implementations. Orders are built
through the Order constructor, as every caller of AddOrder must.
-/

/-- One public mutating call to the main.cpp engine. -/
inductive Op where
| add (orderId : Int) (orderType : OrderType) (quantity : Int) (price : Int) (side : Side)
| cancel (orderId : Int)
| modify (m : OrderModify)
deriving DecidableEq, Repr

/-- Apply one public call to the main.cpp engine. -/
def applyOp (s : OrderBook) : Op → List Trade × OrderBook
  | Op.add orderId orderType quantity price side =>
      s.AddOrder (mkOrder orderId orderType quantity price side)
  | Op.cancel orderId => ([], s.CancelOrder orderId)
  | Op.modify m => s.ModifyOrder m

/-- Run a sequence of public calls on the main.cpp engine. -/
def runOps (s : OrderBook) : List Op → OrderBook
  | [] => s
  | op :: rest => runOps (applyOp s op).2 rest

/-- States of the main.cpp engine reachable from the empty book. -/
def Reachable (s : OrderBook) : Prop :=
  ∃ ops : List Op, runOps emptyBook ops = s

/-- One public mutating call common to both engine implementations. -/
inductive BookOp where
| add (orderId : Int) (orderType : OrderType) (quantity : Int) (price : Int) (side : Side)
| cancel (orderId : Int)
deriving DecidableEq, Repr

/-- Run a call sequence on the main.cpp engine, collecting every returned
trade list and the final state. -/
def runA (s : OrderBook) : List BookOp → List (List Trade) × OrderBook
  | [] => ([], s)
  | BookOp.add orderId orderType quantity price side :: rest =>
      let r := s.AddOrder (mkOrder orderId orderType quantity price side)
      let rec' := runA r.2 rest
      (r.1 :: rec'.1, rec'.2)
  | BookOp.cancel orderId :: rest =>
      let rec' := runA (s.CancelOrder orderId) rest
      ([] :: rec'.1, rec'.2)

/-- Run a call sequence on the part_001 engine, collecting every returned
trade list and the final state. -/
def runB (s : OrderBook) : List BookOp → List (List Trade) × OrderBook
  | [] => ([], s)
  | BookOp.add orderId orderType quantity price side :: rest =>
      let r := s.AddOrderB (mkOrder orderId orderType quantity price side)
      let rec' := runB r.2 rest
      (r.1 :: rec'.1, rec'.2)
  | BookOp.cancel orderId :: rest =>
      let rec' := runB (s.CancelOrder orderId) rest
      ([] :: rec'.1, rec'.2)

/-- All resting orders in a list of price levels, in level order. -/
def queuesOrders : Levels → List Resting
  | [] => []
  | (_, q) :: rest => q ++ queuesOrders rest

/-- All resting orders of the book: every element of every price-level queue on
both sides. -/
def allResting (s : OrderBook) : List Resting :=
  queuesOrders s.bids ++ queuesOrders s.asks

/-- Number of price-level queue entries holding the given order id. -/
def queueCount (s : OrderBook) (orderId : Int) : Nat :=
  ((allResting s).filter (fun r => r.2.orderId = orderId)).length

/-- Book holding one resting GTC sell, id 1, quantity 5, price 100. -/
def bookAfterSell : OrderBook :=
  (OrderBook.AddOrder emptyBook (mkOrder 1 OrderType.GoodTillCancel 5 100 Side.Sell)).2

/-- Scenario B submission: GTC buy, id 2, quantity 10, price 101, against
bookAfterSell. -/
def runScenarioB : List Trade × OrderBook :=
  bookAfterSell.AddOrder (mkOrder 2 OrderType.GoodTillCancel 10 101 Side.Buy)

/-- FillAndKill variant of Scenario B: FAK buy, id 2, quantity 10, price 101,
against bookAfterSell; its remainder of 5 must not rest. -/
def runScenarioFAK : List Trade × OrderBook :=
  bookAfterSell.AddOrder (mkOrder 2 OrderType.FillAndKill 10 101 Side.Buy)

/-- Book with a resting GTC sell id 1 (qty 5, price 100) and a non-crossing
resting GTC buy id 2 (qty 3, price 90). -/
def bookTwoSided : OrderBook :=
  runOps emptyBook
    [Op.add 1 OrderType.GoodTillCancel 5 100 Side.Sell,
     Op.add 2 OrderType.GoodTillCancel 3 90 Side.Buy]

/-- The book does not cross: one side is empty or best bid price < best ask
price. This is exactly the break condition of the outer matching loop. -/
def noCrossB (s : OrderBook) : Bool :=
  match s.bids, s.asks with
  | (bidPrice, _) :: _, (askPrice, _) :: _ => decide (bidPrice < askPrice)
  | _, _ => true

/-- Price keys of a side are strictly ordered by the comparator, best first
(the std::map ordering invariant). -/
def sortedKeys (cmp : Int → Int → Bool) (ls : Levels) : Prop :=
  (ls.map Prod.fst).Pairwise (fun a b => cmp a b = true)

/-- Structural invariant of every reachable book: both sides sorted by their
map comparators and no cross outstanding. -/
def BookInv (s : OrderBook) : Prop :=
  sortedKeys bidCmp s.bids ∧ sortedKeys askCmp s.asks ∧ noCrossB s = true

/-- Quantity-validity of one public call: the submitted quantity (for add and
modify; cancel has none) is nonnegative. -/
def opQuantityOk : Op → Bool
  | Op.add _ _ quantity _ _ => decide (0 ≤ quantity)
  | Op.cancel _ => true
  | Op.modify m => decide (0 ≤ m.quantity)

/-- One resting order instance evolves from another: same insertion sequence
number, same initial quantity, remaining quantity not increased. -/
def Shrinks (r' r : Resting) : Prop :=
  r'.1 = r.1 ∧ r'.2.initialQuantity = r.2.initialQuantity
    ∧ r'.2.remainingQuantity ≤ r.2.remainingQuantity

/-- Sequence-number sanity of a book: every resting order's sequence number is
below the counter, and no two resting orders share a sequence number. -/
def SeqInv (s : OrderBook) : Prop :=
  (∀ r ∈ allResting s, r.1 < s.nextSeq) ∧ ((allResting s).map Prod.fst).Nodup

/-! ### Theorems -/

/-- C1. End-of-match disposal: the claim says a remaining FillAndKill head is
removed from both its queue and the index, and a remaining GoodTillCancel head
stays in both. The code instead erases the remaining head from the index
unconditionally and leaves it in its queue in both cases (the post-erase
CancelOrder call in main.cpp is a no-op because the id is already gone from the
index). Evaluated here at the two failing inputs: a FAK buy remainder and a GTC
buy remainder (Scenario B), each left resting in its queue with no index entry. -/
theorem claim_C1_disposal_eval :
    (runScenarioFAK.2.bids =
        [(101, [(1, ⟨2, OrderType.FillAndKill, 10, 5, 101, Side.Buy⟩)])]
      ∧ lookupIndex runScenarioFAK.2.orders 2 = none)
    ∧ (runScenarioB.2.bids =
        [(101, [(1, ⟨2, OrderType.GoodTillCancel, 10, 5, 101, Side.Buy⟩)])]
      ∧ lookupIndex runScenarioB.2.orders 2 = none) := by
  decide

/-- C2. The index invariant fails on a reachable state: after Scenario B
(GTC sell id 1 qty 5 at 100, then GTC buy id 2 qty 10 at 101), order id 2 sits
in exactly one price-level queue but is absent from the index. -/
theorem claim_C2_invariant_eval :
    queueCount runScenarioB.2 2 = 1 ∧ containsIndex runScenarioB.2.orders 2 = false := by
  decide

/-- C3 counterexample: modifying the live order id 2 of bookTwoSided to a
crossing price returns no trades, while the cancel-then-AddOrder resubmission
it claims to report produces one trade of quantity 3; so ModifyOrder does not
return the trades of the AddOrder resubmission. -/
theorem claim_C3_counterexample :
    (OrderBook.ModifyOrder bookTwoSided ⟨2, Side.Buy, 3, 100⟩).1 = []
    ∧ ((bookTwoSided.CancelOrder 2).AddOrder
          (mkOrder 2 OrderType.GoodTillCancel 3 100 Side.Buy)).1
        = [⟨⟨2, 100, 3⟩, ⟨1, 100, 3⟩⟩] := by
  decide

/-- C8 counterexample: AddOrder performs no quantity validation, so a
GoodTillCancel buy submitted with quantity -1 rests with remaining quantity -1,
violating 0 ≤ remaining. -/
theorem claim_C8_counterexample :
    ((0 : Nat), mkOrder 1 OrderType.GoodTillCancel (-1) 100 Side.Buy)
        ∈ allResting (runOps emptyBook [Op.add 1 OrderType.GoodTillCancel (-1) 100 Side.Buy])
    ∧ ¬ (0 ≤ (mkOrder 1 OrderType.GoodTillCancel (-1) 100 Side.Buy).remainingQuantity) := by
  decide

/-- C10. AddOrder accepts quantity 0 and negative quantities: a zero-quantity
GTC buy on an empty book rests (one queue entry and an index entry), a negative
quantity GTC buy is likewise accepted, and a zero-quantity GTC buy crossing a
resting ask yields a Trade whose executed quantity is 0. -/
theorem claim_C10_no_quantity_validation :
    (containsIndex (runOps emptyBook
        [Op.add 1 OrderType.GoodTillCancel 0 100 Side.Buy]).orders 1 = true
      ∧ queueCount (runOps emptyBook
        [Op.add 1 OrderType.GoodTillCancel 0 100 Side.Buy]) 1 = 1)
    ∧ containsIndex (runOps emptyBook
        [Op.add 1 OrderType.GoodTillCancel (-5) 100 Side.Buy]).orders 1 = true
    ∧ (bookAfterSell.AddOrder (mkOrder 2 OrderType.GoodTillCancel 0 101 Side.Buy)).1
        = [⟨⟨2, 101, 0⟩, ⟨1, 100, 0⟩⟩] := by
  decide

/-- C5. Matching-loop iteration: with both best-level queues non-empty, one
iteration of the inner loop fills the two head orders by exactly
min of their remaining quantities, pops each one that is thereby filled
(erasing it from the index), and emits exactly one Trade whose bid leg is
(bid id, bid price, quantity) and whose ask leg is (ask id, ask price,
quantity). Scenario B: after GTC Sell id 1 qty 5 price 100 and GTC Buy id 2
qty 10 price 101, exactly one trade of quantity 5 with bid leg (2, 101, 5) and
ask leg (1, 100, 5) results, id 1 is gone from queue and index, and id 2 rests
with remaining 5 at price 101. -/
theorem claim_C5_head_match_and_scenarioB :
    (∀ (fuel bseq aseq : Nat) (bo ao : Order) (bt atl : List Resting)
        (idx : List IndexEntry) (tr : List Trade),
      innerLoopF (fuel + 1) ((bseq, bo) :: bt) ((aseq, ao) :: atl) idx tr =
        innerLoopF fuel
          (if bo.remainingQuantity - min bo.remainingQuantity ao.remainingQuantity = 0 then bt
           else (bseq, { bo with remainingQuantity :=
              bo.remainingQuantity - min bo.remainingQuantity ao.remainingQuantity }) :: bt)
          (if ao.remainingQuantity - min bo.remainingQuantity ao.remainingQuantity = 0 then atl
           else (aseq, { ao with remainingQuantity :=
              ao.remainingQuantity - min bo.remainingQuantity ao.remainingQuantity }) :: atl)
          (let idx₁ := if bo.remainingQuantity - min bo.remainingQuantity ao.remainingQuantity = 0
                       then eraseIndex idx bo.orderId else idx
           if ao.remainingQuantity - min bo.remainingQuantity ao.remainingQuantity = 0
           then eraseIndex idx₁ ao.orderId else idx₁)
          (tr ++ [⟨⟨bo.orderId, bo.price, min bo.remainingQuantity ao.remainingQuantity⟩,
                  ⟨ao.orderId, ao.price, min bo.remainingQuantity ao.remainingQuantity⟩⟩]))
    ∧ runScenarioB.1 = [⟨⟨2, 101, 5⟩, ⟨1, 100, 5⟩⟩]
    ∧ queueCount runScenarioB.2 1 = 0
    ∧ lookupIndex runScenarioB.2.orders 1 = none
    ∧ runScenarioB.2.bids =
        [(101, [(1, ⟨2, OrderType.GoodTillCancel, 10, 5, 101, Side.Buy⟩)])] := by
  refine ⟨?_, by decide, by decide, by decide, by decide⟩
  intro fuel bseq aseq bo ao bt atl idx tr
  have hb : bo.Fill (min bo.remainingQuantity ao.remainingQuantity)
      = some { bo with remainingQuantity :=
          bo.remainingQuantity - min bo.remainingQuantity ao.remainingQuantity } := by
    unfold Order.Fill
    rw [if_neg]
    omega
  have ha : ao.Fill (min bo.remainingQuantity ao.remainingQuantity)
      = some { ao with remainingQuantity :=
          ao.remainingQuantity - min bo.remainingQuantity ao.remainingQuantity } := by
    unfold Order.Fill
    rw [if_neg]
    omega
  simp only [innerLoopF, hb, ha, Order.isFilled, beq_iff_eq]

/-- C9. Order::Fill signals the fatal overfill error exactly when the requested
quantity exceeds the remaining quantity, and for the quantity the matching loop
passes to both fills — the minimum of the two heads' remaining quantities —
Fill always succeeds, so the error branch is unreachable from the loop. -/
theorem claim_C9_overfill_guard :
    (∀ (o : Order) (quantity : Int),
        o.Fill quantity = none ↔ o.remainingQuantity < quantity)
    ∧ ∀ bo ao : Order,
        (bo.Fill (min bo.remainingQuantity ao.remainingQuantity)).isSome = true
        ∧ (ao.Fill (min bo.remainingQuantity ao.remainingQuantity)).isSome = true := by
  constructor
  · intro o quantity
    unfold Order.Fill
    split
    · simp
      omega
    · simp
      omega
  · intro bo ao
    constructor
    · unfold Order.Fill
      rw [if_neg]
      · simp
      · omega
    · unfold Order.Fill
      rw [if_neg]
      · simp
      · omega

/-- C4. A FillAndKill order that cannot match is rejected with no trades and no
change at all to the book: no queue entry, no index entry, no price level. -/
theorem claim_C4_fak_no_cross_rejected (s : OrderBook) (o : Order)
    (htype : o.orderType = OrderType.FillAndKill)
    (hnc : s.CanMatch o.side o.price = false) :
    s.AddOrder o = ([], s) := by
  unfold OrderBook.AddOrder
  rw [hnc, htype]
  simp

/-- C4 witness: a FAK buy at 50 on the empty book (no ask crosses) is rejected
and the book is unchanged. -/
theorem claim_C4_witness :
    (mkOrder 7 OrderType.FillAndKill 3 50 Side.Buy).orderType = OrderType.FillAndKill
    ∧ OrderBook.CanMatch emptyBook Side.Buy 50 = false
    ∧ emptyBook.AddOrder (mkOrder 7 OrderType.FillAndKill 3 50 Side.Buy) = ([], emptyBook) :=
  ⟨by decide, by decide,
   claim_C4_fak_no_cross_rejected emptyBook (mkOrder 7 OrderType.FillAndKill 3 50 Side.Buy)
     (by decide) (by decide)⟩

theorem lookupIndex_eraseIndex (idx : List IndexEntry) (orderId : Int) :
    lookupIndex (eraseIndex idx orderId) orderId = none := by
  induction idx with
  | nil => rfl
  | cons e rest ih =>
      obtain ⟨k, v⟩ := e
      unfold eraseIndex
      by_cases hk : k = orderId
      · simp [hk, ih]
      · simp [hk, lookupIndex, ih]

theorem CancelOrder_of_lookup_none (s : OrderBook) (orderId : Int)
    (h : lookupIndex s.orders orderId = none) : s.CancelOrder orderId = s := by
  unfold OrderBook.CancelOrder
  rw [h]

theorem CancelOrder_after_eraseIndex (b a : Levels) (idx : List IndexEntry) (n : Nat)
    (orderId : Int) :
    OrderBook.CancelOrder ⟨b, a, eraseIndex idx orderId, n⟩ orderId
      = ⟨b, a, eraseIndex idx orderId, n⟩ := by
  apply CancelOrder_of_lookup_none
  exact lookupIndex_eraseIndex idx orderId

theorem disposeBid_eq_disposeBidB (s : OrderBook) : s.disposeBid = s.disposeBidB := by
  unfold OrderBook.disposeBid OrderBook.disposeBidB
  rcases hb : s.bids with _ | ⟨⟨p, _ | ⟨r, q⟩⟩, rest⟩
  · rfl
  · rfl
  · by_cases hft : r.2.orderType = OrderType.FillAndKill
    · simp only [hft, if_true]
      exact CancelOrder_after_eraseIndex _ _ _ _ _
    · simp only [hft, if_false]

theorem disposeAsk_eq_disposeAskB (s : OrderBook) : s.disposeAsk = s.disposeAskB := by
  unfold OrderBook.disposeAsk OrderBook.disposeAskB
  rcases ha : s.asks with _ | ⟨⟨p, _ | ⟨r, q⟩⟩, rest⟩
  · rfl
  · rfl
  · exact CancelOrder_of_lookup_none _ _ (lookupIndex_eraseIndex s.orders r.2.orderId)

theorem matchBody_eq_matchBodyB (s : OrderBook) (tr : List Trade) :
    s.matchBody tr = s.matchBodyB tr := by
  unfold OrderBook.matchBody OrderBook.matchBodyB
  rcases s.bids with _ | ⟨⟨bp, bq⟩, brest⟩
  · rfl
  · rcases s.asks with _ | ⟨⟨ap, aq⟩, arest⟩
    · rfl
    · simp only [disposeBid_eq_disposeBidB, disposeAsk_eq_disposeAskB]

theorem matchLoopF_eq_matchLoopFB (fuel : Nat) (s : OrderBook) (tr : List Trade) :
    OrderBook.matchLoopF fuel s tr = OrderBook.matchLoopFB fuel s tr := by
  induction fuel generalizing s tr with
  | zero => rfl
  | succ fuel ih =>
      unfold OrderBook.matchLoopF OrderBook.matchLoopFB
      rcases s.bids with _ | ⟨⟨bp, bq⟩, brest⟩
      · rfl
      · rcases s.asks with _ | ⟨⟨ap, aq⟩, arest⟩
        · rfl
        · by_cases hp : bp < ap
          · simp [hp]
          · simp [hp, matchBody_eq_matchBodyB, ih]

theorem MatchOrders_eq_MatchOrdersB (s : OrderBook) : s.MatchOrders = s.MatchOrdersB := by
  unfold OrderBook.MatchOrders OrderBook.MatchOrdersB
  rw [matchLoopF_eq_matchLoopFB]

theorem AddOrder_eq_AddOrderB (s : OrderBook) (o : Order) :
    s.AddOrder o = s.AddOrderB o := by
  unfold OrderBook.AddOrder OrderBook.AddOrderB
  simp only [MatchOrders_eq_MatchOrdersB]

/-- C6. The two engine implementations are behaviourally equivalent on every
call sequence of addOrder and cancelOrder from any common starting state: the
same trade lists are returned call by call and the same final book state
results. The equivalence holds even in the end-of-match disposal edge case,
because the extra CancelOrder calls of main.cpp run after the order id has
already been erased from the index and are therefore no-ops. -/
theorem claim_C6_equivalence (s : OrderBook) (ops : List BookOp) :
    runA s ops = runB s ops := by
  induction ops generalizing s with
  | nil => rfl
  | cons op rest ih =>
      cases op with
      | add orderId orderType quantity price side =>
          unfold runA runB
          simp only [AddOrder_eq_AddOrderB, ih]
      | cancel orderId =>
          unfold runA runB
          simp only [ih]

theorem innerLoopF_empties (fuel : Nat) :
    ∀ (bq aq : List Resting) (idx : List IndexEntry) (tr : List Trade),
      bq.length + aq.length ≤ fuel →
      (innerLoopF fuel bq aq idx tr).bidQueue = []
        ∨ (innerLoopF fuel bq aq idx tr).askQueue = [] := by
  induction fuel with
  | zero =>
      intro bq aq idx tr h
      left
      have hbq : bq = [] := by
        cases bq with
        | nil => rfl
        | cons x xs => simp at h
      subst hbq
      rfl
  | succ fuel ih =>
      intro bq aq idx tr h
      cases bq with
      | nil => left; rfl
      | cons b bt =>
          cases aq with
          | nil => right; rfl
          | cons a atl =>
              obtain ⟨bseq, bo⟩ := b
              obtain ⟨aseq, ao⟩ := a
              have hb : bo.Fill (min bo.remainingQuantity ao.remainingQuantity)
                  = some { bo with remainingQuantity :=
                      bo.remainingQuantity - min bo.remainingQuantity ao.remainingQuantity } := by
                unfold Order.Fill
                rw [if_neg]
                omega
              have ha : ao.Fill (min bo.remainingQuantity ao.remainingQuantity)
                  = some { ao with remainingQuantity :=
                      ao.remainingQuantity - min bo.remainingQuantity ao.remainingQuantity } := by
                unfold Order.Fill
                rw [if_neg]
                omega
              simp only [innerLoopF, hb, ha, Order.isFilled, beq_iff_eq]
              by_cases hbf : bo.remainingQuantity
                  - min bo.remainingQuantity ao.remainingQuantity = 0
              · by_cases haf : ao.remainingQuantity
                    - min bo.remainingQuantity ao.remainingQuantity = 0
                · simp only [hbf, haf, if_true]
                  apply ih
                  simp at h ⊢
                  omega
                · simp only [hbf, haf, if_true, if_false]
                  apply ih
                  simp at h ⊢
                  omega
              · by_cases haf : ao.remainingQuantity
                    - min bo.remainingQuantity ao.remainingQuantity = 0
                · simp only [hbf, haf, if_true, if_false]
                  apply ih
                  simp at h ⊢
                  omega
                · exfalso
                  omega

theorem disposeBidB_bids (s : OrderBook) : (OrderBook.disposeBidB s).bids = s.bids := by
  unfold OrderBook.disposeBidB
  split <;> rfl

theorem disposeBidB_asks (s : OrderBook) : (OrderBook.disposeBidB s).asks = s.asks := by
  unfold OrderBook.disposeBidB
  split <;> rfl

theorem disposeAskB_bids (s : OrderBook) : (OrderBook.disposeAskB s).bids = s.bids := by
  unfold OrderBook.disposeAskB
  split <;> rfl

theorem disposeAskB_asks (s : OrderBook) : (OrderBook.disposeAskB s).asks = s.asks := by
  unfold OrderBook.disposeAskB
  split <;> rfl

theorem matchBody_bids (bp ap : Int) (bq aq : List Resting) (brest arest : Levels)
    (idx : List IndexEntry) (n : Nat) (tr : List Trade) :
    (OrderBook.matchBody ⟨(bp, bq) :: brest, (ap, aq) :: arest, idx, n⟩ tr).1.bids
      = (if (innerLoopF (bq.length + aq.length + 1) bq aq idx tr).bidQueue.isEmpty then brest
         else (bp, (innerLoopF (bq.length + aq.length + 1) bq aq idx tr).bidQueue) :: brest) := by
  unfold OrderBook.matchBody
  simp only [disposeBid_eq_disposeBidB, disposeAsk_eq_disposeAskB]
  by_cases hbe : (innerLoopF (bq.length + aq.length + 1) bq aq idx tr).bidQueue.isEmpty
  · by_cases hae : (innerLoopF (bq.length + aq.length + 1) bq aq idx tr).askQueue.isEmpty
    · simp [hbe, hae]
    · simp [hbe, hae, disposeAskB_bids]
  · by_cases hae : (innerLoopF (bq.length + aq.length + 1) bq aq idx tr).askQueue.isEmpty
    · simp [hbe, hae, disposeBidB_bids]
    · simp [hbe, hae, disposeAskB_bids, disposeBidB_bids]

theorem matchBody_asks (bp ap : Int) (bq aq : List Resting) (brest arest : Levels)
    (idx : List IndexEntry) (n : Nat) (tr : List Trade) :
    (OrderBook.matchBody ⟨(bp, bq) :: brest, (ap, aq) :: arest, idx, n⟩ tr).1.asks
      = (if (innerLoopF (bq.length + aq.length + 1) bq aq idx tr).askQueue.isEmpty then arest
         else (ap, (innerLoopF (bq.length + aq.length + 1) bq aq idx tr).askQueue) :: arest) := by
  unfold OrderBook.matchBody
  simp only [disposeBid_eq_disposeBidB, disposeAsk_eq_disposeAskB]
  by_cases hbe : (innerLoopF (bq.length + aq.length + 1) bq aq idx tr).bidQueue.isEmpty
  · by_cases hae : (innerLoopF (bq.length + aq.length + 1) bq aq idx tr).askQueue.isEmpty
    · simp [hbe, hae]
    · simp [hbe, hae, disposeAskB_asks]
  · by_cases hae : (innerLoopF (bq.length + aq.length + 1) bq aq idx tr).askQueue.isEmpty
    · simp [hbe, hae, disposeBidB_asks]
    · simp [hbe, hae, disposeAskB_asks, disposeBidB_asks]

theorem matchBody_levelCount (s : OrderBook) (tr : List Trade)
    (hbids : s.bids ≠ []) (hasks : s.asks ≠ []) :
    (s.matchBody tr).1.levelCount < s.levelCount := by
  obtain ⟨bids, asks, idx, n⟩ := s
  simp only at hbids hasks
  obtain ⟨⟨bp, bq⟩, brest, rfl⟩ : ∃ l rest, bids = l :: rest := by
    cases bids with
    | nil => exact absurd rfl hbids
    | cons l rest => exact ⟨l, rest, rfl⟩
  obtain ⟨⟨ap, aq⟩, arest, rfl⟩ : ∃ l rest, asks = l :: rest := by
    cases asks with
    | nil => exact absurd rfl hasks
    | cons l rest => exact ⟨l, rest, rfl⟩
  have hempties := innerLoopF_empties (bq.length + aq.length + 1) bq aq idx tr (by omega)
  unfold OrderBook.levelCount
  rw [matchBody_bids, matchBody_asks]
  by_cases hbe : (innerLoopF (bq.length + aq.length + 1) bq aq idx tr).bidQueue.isEmpty = true
  · by_cases hae : (innerLoopF (bq.length + aq.length + 1) bq aq idx tr).askQueue.isEmpty = true
    · rw [if_pos hbe, if_pos hae]
      simp only [List.length_cons]
      omega
    · rw [if_pos hbe, if_neg hae]
      simp only [List.length_cons]
      omega
  · by_cases hae : (innerLoopF (bq.length + aq.length + 1) bq aq idx tr).askQueue.isEmpty = true
    · rw [if_neg hbe, if_pos hae]
      simp only [List.length_cons]
      omega
    · exfalso
      rcases hempties with h | h
      · exact hbe (by simp [h])
      · exact hae (by simp [h])

theorem matchLoopF_isSome (fuel : Nat) :
    ∀ (s : OrderBook) (tr : List Trade), s.levelCount < fuel →
      (OrderBook.matchLoopF fuel s tr).isSome = true := by
  induction fuel with
  | zero =>
      intro s tr h
      exact absurd h (by omega)
  | succ fuel ih =>
      intro s tr h
      unfold OrderBook.matchLoopF
      cases hbl : s.bids with
      | nil => rfl
      | cons bl brest =>
          obtain ⟨bp, bq⟩ := bl
          cases hal : s.asks with
          | nil => rfl
          | cons al arest =>
              obtain ⟨ap, aq⟩ := al
              dsimp only
              by_cases hp : bp < ap
              · rw [if_pos hp]
                rfl
              · rw [if_neg hp]
                apply ih
                have hdec := matchBody_levelCount s tr (by rw [hbl]; simp) (by rw [hal]; simp)
                have hlc : s.levelCount = brest.length + arest.length + 2 := by
                  unfold OrderBook.levelCount
                  rw [hbl, hal]
                  simp
                  omega
                omega

/-- C7. The matching loop terminates: the outer loop reaches one of its break
conditions within levelCount + 1 iterations from any state, because — as the
second conjunct states — every execution of the loop body on a state with both
sides non-empty strictly decreases the number of price levels in the book. -/
theorem claim_C7_termination :
    (∀ s : OrderBook, (OrderBook.matchLoopF (s.levelCount + 1) s []).isSome = true)
    ∧ ∀ (s : OrderBook) (tr : List Trade), s.bids ≠ [] → s.asks ≠ [] →
        (s.matchBody tr).1.levelCount < s.levelCount := by
  constructor
  · intro s
    exact matchLoopF_isSome (s.levelCount + 1) s [] (by omega)
  · intro s tr hb ha
    exact matchBody_levelCount s tr hb ha

/-- C7 witness: on the concrete two-sided book, the loop body strictly
decreases the level count and the fueled loop returns a result. -/
theorem claim_C7_witness :
    (OrderBook.matchLoopF (bookTwoSided.levelCount + 1) bookTwoSided []).isSome = true
    ∧ bookTwoSided.bids ≠ []
    ∧ bookTwoSided.asks ≠ []
    ∧ (bookTwoSided.matchBody []).1.levelCount < bookTwoSided.levelCount :=
  ⟨claim_C7_termination.1 bookTwoSided, by decide, by decide,
   claim_C7_termination.2 bookTwoSided [] (by decide) (by decide)⟩

theorem bidCmp_trans (a b c : Int) (h1 : bidCmp a b = true) (h2 : bidCmp b c = true) :
    bidCmp a c = true := by
  simp [bidCmp] at h1 h2 ⊢
  omega

theorem bidCmp_total (a b : Int) (hne : ¬ a = b) (h : bidCmp a b = false) :
    bidCmp b a = true := by
  simp [bidCmp] at h ⊢
  omega

theorem askCmp_trans (a b c : Int) (h1 : askCmp a b = true) (h2 : askCmp b c = true) :
    askCmp a c = true := by
  simp [askCmp] at h1 h2 ⊢
  omega

theorem askCmp_total (a b : Int) (hne : ¬ a = b) (h : askCmp a b = false) :
    askCmp b a = true := by
  simp [askCmp] at h ⊢
  omega

theorem insertLevelBy_keys_mem (cmp : Int → Int → Bool) (price : Int) (r : Resting) :
    ∀ (ls : Levels) (k : Int), k ∈ (insertLevelBy cmp price r ls).map Prod.fst →
      k = price ∨ k ∈ ls.map Prod.fst := by
  intro ls
  induction ls with
  | nil =>
      intro k hk
      simp only [insertLevelBy, List.map_cons, List.map_nil, List.mem_cons,
        List.not_mem_nil, or_false] at hk
      exact Or.inl hk
  | cons l rest ih =>
      obtain ⟨p, q⟩ := l
      intro k hk
      unfold insertLevelBy at hk
      by_cases h1 : price = p
      · rw [if_pos h1] at hk
        simp only [List.map_cons, List.mem_cons] at hk
        exact Or.inr (by simp only [List.map_cons, List.mem_cons]; exact hk)
      · rw [if_neg h1] at hk
        by_cases h2 : cmp price p = true
        · rw [if_pos h2] at hk
          simp only [List.map_cons, List.mem_cons] at hk
          rcases hk with hk | hk
          · exact Or.inl hk
          · exact Or.inr (by simp only [List.map_cons, List.mem_cons]; exact hk)
        · rw [if_neg h2] at hk
          simp only [List.map_cons, List.mem_cons] at hk
          rcases hk with hk | hk
          · exact Or.inr (by simp only [List.map_cons, List.mem_cons]; exact Or.inl hk)
          · rcases ih k hk with hk' | hk'
            · exact Or.inl hk'
            · exact Or.inr (by simp only [List.map_cons, List.mem_cons]; exact Or.inr hk')

theorem insertLevelBy_sorted (cmp : Int → Int → Bool)
    (htrans : ∀ a b c, cmp a b = true → cmp b c = true → cmp a c = true)
    (htotal : ∀ a b, ¬ a = b → cmp a b = false → cmp b a = true)
    (price : Int) (r : Resting) :
    ∀ ls : Levels, sortedKeys cmp ls → sortedKeys cmp (insertLevelBy cmp price r ls) := by
  intro ls
  induction ls with
  | nil =>
      intro _
      simp [insertLevelBy, sortedKeys]
  | cons l rest ih =>
      obtain ⟨p, q⟩ := l
      intro h
      unfold sortedKeys at h
      simp only [List.map_cons, List.pairwise_cons] at h
      obtain ⟨hhead, htail⟩ := h
      unfold insertLevelBy
      by_cases h1 : price = p
      · rw [if_pos h1]
        unfold sortedKeys
        simp only [List.map_cons, List.pairwise_cons]
        exact ⟨hhead, htail⟩
      · rw [if_neg h1]
        by_cases h2 : cmp price p = true
        · rw [if_pos h2]
          unfold sortedKeys
          simp only [List.map_cons, List.pairwise_cons]
          refine ⟨?_, hhead, htail⟩
          intro x hx
          simp only [List.mem_cons] at hx
          rcases hx with hx | hx
          · rw [hx]
            exact h2
          · exact htrans price p x h2 (hhead x hx)
        · rw [if_neg h2]
          unfold sortedKeys
          simp only [List.map_cons, List.pairwise_cons]
          constructor
          · intro x hx
            rcases insertLevelBy_keys_mem cmp price r rest x hx with hx' | hx'
            · rw [hx']
              exact htotal price p h1 (by simp [h2])
            · exact hhead x hx'
          · exact ih htail

theorem eraseFromLevels_keys (price : Int) (seq : Nat) :
    ∀ ls : Levels, ((eraseFromLevels price seq ls).map Prod.fst).Sublist (ls.map Prod.fst) := by
  intro ls
  induction ls with
  | nil => simp [eraseFromLevels]
  | cons l rest ih =>
      obtain ⟨p, q⟩ := l
      unfold eraseFromLevels
      by_cases h1 : p = price
      · rw [if_pos h1]
        by_cases h2 : (q.filter (fun r => r.1 ≠ seq)).isEmpty = true
        · rw [if_pos h2]
          simp only [List.map_cons]
          exact (List.Sublist.refl _).cons p
        · rw [if_neg h2]
          simp only [List.map_cons]
          exact (List.Sublist.refl _).cons₂ p
      · rw [if_neg h1]
        simp only [List.map_cons]
        exact ih.cons₂ p

theorem sortedKeys_of_sublist (cmp : Int → Int → Bool) (ls ls' : Levels)
    (hsub : (ls'.map Prod.fst).Sublist (ls.map Prod.fst)) (h : sortedKeys cmp ls) :
    sortedKeys cmp ls' := by
  unfold sortedKeys at h ⊢
  exact h.sublist hsub

theorem bid_head_max (bp k : Int) (kt : List Int)
    (h : (bp :: kt).Pairwise (fun a b => bidCmp a b = true)) (hm : k ∈ bp :: kt) :
    k ≤ bp := by
  rw [List.pairwise_cons] at h
  rcases List.mem_cons.mp hm with hk | hk
  · omega
  · have := h.1 k hk
    simp [bidCmp] at this
    omega

theorem ask_head_min (ap k : Int) (kt : List Int)
    (h : (ap :: kt).Pairwise (fun a b => askCmp a b = true)) (hm : k ∈ ap :: kt) :
    ap ≤ k := by
  rw [List.pairwise_cons] at h
  rcases List.mem_cons.mp hm with hk | hk
  · omega
  · have := h.1 k hk
    simp [askCmp] at this
    omega

theorem matchLoopF_noCross (fuel : Nat) :
    ∀ (s : OrderBook) (tr tr' : List Trade) (s' : OrderBook),
      OrderBook.matchLoopF fuel s tr = some (tr', s') → noCrossB s' = true := by
  induction fuel with
  | zero =>
      intro s tr tr' s' h
      simp [OrderBook.matchLoopF] at h
  | succ fuel ih =>
      intro s tr tr' s' h
      unfold OrderBook.matchLoopF at h
      cases hbl : s.bids with
      | nil =>
          rw [hbl] at h
          simp at h
          rw [← h.2]
          unfold noCrossB
          rw [hbl]
      | cons bl brest =>
          obtain ⟨bp, bq⟩ := bl
          cases hal : s.asks with
          | nil =>
              rw [hbl, hal] at h
              simp at h
              rw [← h.2]
              unfold noCrossB
              rw [hbl, hal]
          | cons al arest =>
              obtain ⟨ap, aq⟩ := al
              rw [hbl, hal] at h
              dsimp only at h
              by_cases hp : bp < ap
              · rw [if_pos hp] at h
                simp at h
                rw [← h.2]
                unfold noCrossB
                rw [hbl, hal]
                simp [hp]
              · rw [if_neg hp] at h
                exact ih _ _ _ _ h

theorem matchBody_sortedKeys (s : OrderBook) (tr : List Trade)
    (hb : sortedKeys bidCmp s.bids) (ha : sortedKeys askCmp s.asks) :
    sortedKeys bidCmp (s.matchBody tr).1.bids ∧ sortedKeys askCmp (s.matchBody tr).1.asks := by
  obtain ⟨bids, asks, idx, n⟩ := s
  cases bids with
  | nil => exact ⟨hb, ha⟩
  | cons bl brest =>
      obtain ⟨bp, bq⟩ := bl
      cases asks with
      | nil => exact ⟨hb, ha⟩
      | cons al arest =>
          obtain ⟨ap, aq⟩ := al
          rw [matchBody_bids, matchBody_asks]
          simp only at hb ha
          constructor
          · by_cases hbe : (innerLoopF (bq.length + aq.length + 1) bq aq idx tr).bidQueue.isEmpty
              = true
            · rw [if_pos hbe]
              unfold sortedKeys at hb ⊢
              simp only [List.map_cons] at hb
              exact hb.of_cons
            · rw [if_neg hbe]
              unfold sortedKeys at hb ⊢
              simp only [List.map_cons] at hb ⊢
              exact hb
          · by_cases hae : (innerLoopF (bq.length + aq.length + 1) bq aq idx tr).askQueue.isEmpty
              = true
            · rw [if_pos hae]
              unfold sortedKeys at ha ⊢
              simp only [List.map_cons] at ha
              exact ha.of_cons
            · rw [if_neg hae]
              unfold sortedKeys at ha ⊢
              simp only [List.map_cons] at ha ⊢
              exact ha

theorem matchLoopF_sortedKeys (fuel : Nat) :
    ∀ (s : OrderBook) (tr tr' : List Trade) (s' : OrderBook),
      OrderBook.matchLoopF fuel s tr = some (tr', s') →
      sortedKeys bidCmp s.bids → sortedKeys askCmp s.asks →
      sortedKeys bidCmp s'.bids ∧ sortedKeys askCmp s'.asks := by
  induction fuel with
  | zero =>
      intro s tr tr' s' h
      simp [OrderBook.matchLoopF] at h
  | succ fuel ih =>
      intro s tr tr' s' h hb ha
      unfold OrderBook.matchLoopF at h
      cases hbl : s.bids with
      | nil =>
          rw [hbl] at h
          simp at h
          rw [← h.2]
          exact ⟨hb, ha⟩
      | cons bl brest =>
          obtain ⟨bp, bq⟩ := bl
          cases hal : s.asks with
          | nil =>
              rw [hbl, hal] at h
              simp at h
              rw [← h.2]
              exact ⟨hb, ha⟩
          | cons al arest =>
              obtain ⟨ap, aq⟩ := al
              rw [hbl, hal] at h
              dsimp only at h
              by_cases hp : bp < ap
              · rw [if_pos hp] at h
                simp at h
                rw [← h.2]
                exact ⟨hb, ha⟩
              · rw [if_neg hp] at h
                have hbody := matchBody_sortedKeys s tr hb ha
                exact ih _ _ _ _ h hbody.1 hbody.2

theorem matchOrders_eq_some (s : OrderBook) :
    OrderBook.matchLoopF (s.levelCount + 1) s [] = some s.MatchOrders := by
  have h := matchLoopF_isSome (s.levelCount + 1) s [] (by omega)
  cases heq : OrderBook.matchLoopF (s.levelCount + 1) s [] with
  | none => rw [heq] at h; simp at h
  | some v =>
      unfold OrderBook.MatchOrders
      rw [heq]
      rfl

theorem MatchOrders_noCross (s : OrderBook) : noCrossB s.MatchOrders.2 = true := by
  exact matchLoopF_noCross (s.levelCount + 1) s [] s.MatchOrders.1 s.MatchOrders.2
    (matchOrders_eq_some s)

theorem MatchOrders_sortedKeys (s : OrderBook)
    (hb : sortedKeys bidCmp s.bids) (ha : sortedKeys askCmp s.asks) :
    sortedKeys bidCmp s.MatchOrders.2.bids ∧ sortedKeys askCmp s.MatchOrders.2.asks :=
  matchLoopF_sortedKeys (s.levelCount + 1) s [] s.MatchOrders.1 s.MatchOrders.2
    (matchOrders_eq_some s) hb ha

theorem MatchOrders_stable (s : OrderBook) (h : noCrossB s = true) :
    s.MatchOrders = ([], s) := by
  unfold OrderBook.MatchOrders
  unfold noCrossB at h
  obtain ⟨bids, asks, idx, n⟩ := s
  cases bids with
  | nil => rfl
  | cons bl brest =>
      obtain ⟨bp, bq⟩ := bl
      cases asks with
      | nil => rfl
      | cons al arest =>
          obtain ⟨ap, aq⟩ := al
          simp only at h
          have hp : bp < ap := by simpa using h
          unfold OrderBook.matchLoopF
          dsimp only
          rw [if_pos hp]
          rfl

theorem CancelOrder_levels (s : OrderBook) (orderId : Int) :
    ((s.CancelOrder orderId).bids = s.bids ∧ (s.CancelOrder orderId).asks = s.asks)
    ∨ (∃ p loc, (s.CancelOrder orderId).bids = eraseFromLevels p loc s.bids
          ∧ (s.CancelOrder orderId).asks = s.asks)
    ∨ (∃ p loc, (s.CancelOrder orderId).bids = s.bids
          ∧ (s.CancelOrder orderId).asks = eraseFromLevels p loc s.asks) := by
  unfold OrderBook.CancelOrder
  cases hl : lookupIndex s.orders orderId with
  | none => exact Or.inl ⟨rfl, rfl⟩
  | some v =>
      obtain ⟨o, loc⟩ := v
      dsimp only
      by_cases hs : o.side = Side.Buy
      · rw [if_pos hs]
        exact Or.inr (Or.inl ⟨o.price, loc, rfl, rfl⟩)
      · rw [if_neg hs]
        exact Or.inr (Or.inr ⟨o.price, loc, rfl, rfl⟩)

theorem CancelOrder_sortedKeys (s : OrderBook) (orderId : Int)
    (hb : sortedKeys bidCmp s.bids) (ha : sortedKeys askCmp s.asks) :
    sortedKeys bidCmp (s.CancelOrder orderId).bids
      ∧ sortedKeys askCmp (s.CancelOrder orderId).asks := by
  rcases CancelOrder_levels s orderId with ⟨h1, h2⟩ | ⟨p, loc, h1, h2⟩ | ⟨p, loc, h1, h2⟩
  · rw [h1, h2]
    exact ⟨hb, ha⟩
  · rw [h1, h2]
    exact ⟨sortedKeys_of_sublist bidCmp s.bids _ (eraseFromLevels_keys p loc s.bids) hb, ha⟩
  · rw [h1, h2]
    exact ⟨hb, sortedKeys_of_sublist askCmp s.asks _ (eraseFromLevels_keys p loc s.asks) ha⟩

theorem noCrossB_levels_eq (s s' : OrderBook) (h1 : s'.bids = s.bids) (h2 : s'.asks = s.asks)
    (h : noCrossB s = true) : noCrossB s' = true := by
  unfold noCrossB at h ⊢
  rw [h1, h2]
  exact h

theorem CancelOrder_noCross (s : OrderBook) (orderId : Int)
    (hb : sortedKeys bidCmp s.bids) (ha : sortedKeys askCmp s.asks)
    (hnc : noCrossB s = true) : noCrossB (s.CancelOrder orderId) = true := by
  rcases CancelOrder_levels s orderId with ⟨h1, h2⟩ | ⟨p, loc, h1, h2⟩ | ⟨p, loc, h1, h2⟩
  · exact noCrossB_levels_eq s _ h1 h2 hnc
  · unfold noCrossB
    rw [h1, h2]
    cases he : eraseFromLevels p loc s.bids with
    | nil => rfl
    | cons el erest =>
        obtain ⟨p₁, q₁⟩ := el
        cases hal : s.asks with
        | nil => rfl
        | cons al arest =>
            obtain ⟨ap, aq⟩ := al
            dsimp only
            have hmem : p₁ ∈ s.bids.map Prod.fst := by
              have hsub := eraseFromLevels_keys p loc s.bids
              rw [he] at hsub
              exact hsub.mem (by simp)
            cases hbl : s.bids with
            | nil =>
                rw [hbl] at hmem
                simp at hmem
            | cons bl brest =>
                obtain ⟨bp, bq⟩ := bl
                rw [hbl] at hmem
                simp only [List.map_cons] at hmem
                have hle : p₁ ≤ bp := by
                  apply bid_head_max bp p₁ (brest.map Prod.fst) _ hmem
                  have := hb
                  rw [hbl] at this
                  unfold sortedKeys at this
                  simpa using this
                have hlt : bp < ap := by
                  unfold noCrossB at hnc
                  rw [hbl, hal] at hnc
                  simpa using hnc
                simp
                omega
  · unfold noCrossB
    rw [h1, h2]
    cases hbl : s.bids with
    | nil => rfl
    | cons bl brest =>
        obtain ⟨bp, bq⟩ := bl
        cases he : eraseFromLevels p loc s.asks with
        | nil => rfl
        | cons el erest =>
            obtain ⟨ap₁, aq₁⟩ := el
            dsimp only
            have hmem : ap₁ ∈ s.asks.map Prod.fst := by
              have hsub := eraseFromLevels_keys p loc s.asks
              rw [he] at hsub
              exact hsub.mem (by simp)
            cases hal : s.asks with
            | nil =>
                rw [hal] at hmem
                simp at hmem
            | cons al arest =>
                obtain ⟨ap, aq⟩ := al
                rw [hal] at hmem
                simp only [List.map_cons] at hmem
                have hle : ap ≤ ap₁ := by
                  apply ask_head_min ap ap₁ (arest.map Prod.fst) _ hmem
                  have := ha
                  rw [hal] at this
                  unfold sortedKeys at this
                  simpa using this
                have hlt : bp < ap := by
                  unfold noCrossB at hnc
                  rw [hbl, hal] at hnc
                  simpa using hnc
                simp
                omega

theorem CancelOrder_inv (s : OrderBook) (orderId : Int) (h : BookInv s) :
    BookInv (s.CancelOrder orderId) := by
  obtain ⟨hb, ha, hnc⟩ := h
  obtain ⟨hb', ha'⟩ := CancelOrder_sortedKeys s orderId hb ha
  exact ⟨hb', ha', CancelOrder_noCross s orderId hb ha hnc⟩

theorem MatchOrders_inv (s : OrderBook)
    (hb : sortedKeys bidCmp s.bids) (ha : sortedKeys askCmp s.asks) :
    BookInv s.MatchOrders.2 := by
  obtain ⟨hb', ha'⟩ := MatchOrders_sortedKeys s hb ha
  exact ⟨hb', ha', MatchOrders_noCross s⟩

theorem AddOrder_inv (s : OrderBook) (o : Order) (h : BookInv s) :
    BookInv (s.AddOrder o).2 := by
  obtain ⟨hb, ha, hnc⟩ := h
  unfold OrderBook.AddOrder
  by_cases hc : containsIndex s.orders o.orderId = true
  · rw [if_pos hc]
    exact ⟨hb, ha, hnc⟩
  · rw [if_neg hc]
    by_cases hf : (!s.CanMatch o.side o.price && (o.orderType == OrderType.FillAndKill)) = true
    · rw [if_pos hf]
      exact ⟨hb, ha, hnc⟩
    · rw [if_neg hf]
      by_cases hs : o.side = Side.Buy
      · simp only [hs, if_true]
        exact MatchOrders_inv _
          (insertLevelBy_sorted bidCmp bidCmp_trans bidCmp_total o.price _ s.bids hb) ha
      · simp only [hs, if_false]
        exact MatchOrders_inv _ hb
          (insertLevelBy_sorted askCmp askCmp_trans askCmp_total o.price _ s.asks ha)

theorem AddOrder_noCross (s : OrderBook) (o : Order) (h : noCrossB s = true) :
    noCrossB (s.AddOrder o).2 = true := by
  unfold OrderBook.AddOrder
  by_cases hc : containsIndex s.orders o.orderId = true
  · rw [if_pos hc]
    exact h
  · rw [if_neg hc]
    by_cases hf : (!s.CanMatch o.side o.price && (o.orderType == OrderType.FillAndKill)) = true
    · rw [if_pos hf]
      exact h
    · rw [if_neg hf]
      by_cases hs : o.side = Side.Buy
      · simp only [hs, if_true]
        exact MatchOrders_noCross _
      · simp only [hs, if_false]
        exact MatchOrders_noCross _

theorem ModifyOrder_inv (s : OrderBook) (m : OrderModify) (h : BookInv s) :
    BookInv (s.ModifyOrder m).2 := by
  unfold OrderBook.ModifyOrder
  cases hl : lookupIndex s.orders m.orderId with
  | none => exact h
  | some v =>
      obtain ⟨o, loc⟩ := v
      dsimp only
      have h2 := AddOrder_inv _ (m.ToOrderPointer o.orderType) (CancelOrder_inv s m.orderId h)
      exact MatchOrders_inv _ h2.1 h2.2.1

theorem applyOp_inv (s : OrderBook) (op : Op) (h : BookInv s) : BookInv (applyOp s op).2 := by
  cases op with
  | add orderId orderType quantity price side => exact AddOrder_inv s _ h
  | cancel orderId => exact CancelOrder_inv s orderId h
  | modify m => exact ModifyOrder_inv s m h

theorem emptyBook_inv : BookInv emptyBook := by
  refine ⟨?_, ?_, rfl⟩ <;> simp [sortedKeys, emptyBook]

theorem runOps_inv (ops : List Op) : ∀ s : OrderBook, BookInv s → BookInv (runOps s ops) := by
  induction ops with
  | nil => intro s h; exact h
  | cons op rest ih =>
      intro s h
      exact ih _ (applyOp_inv s op h)

theorem Reachable_inv (s : OrderBook) (h : Reachable s) : BookInv s := by
  obtain ⟨ops, rfl⟩ := h
  exact runOps_inv ops emptyBook emptyBook_inv

/-- C3 (amended). For every reachable book, modifying a live order id performs
exactly cancel-then-resubmit — the fresh order carries the same identifier, the
original order's type, and the new side/quantity/price — but the trades of that
AddOrder are discarded: the returned trade list is that of one further
MatchOrders run on the already-uncrossed post-AddOrder book, hence always
empty. For an identifier that is not live, nothing changes and no trades are
returned. -/
theorem claim_C3_modify_amended (s : OrderBook) (hs : Reachable s) (m : OrderModify) :
    OrderBook.ModifyOrder s m =
      match lookupIndex s.orders m.orderId with
      | none => ([], s)
      | some (o, _) =>
          ([], ((s.CancelOrder m.orderId).AddOrder (m.ToOrderPointer o.orderType)).2) := by
  have hinv := Reachable_inv s hs
  unfold OrderBook.ModifyOrder
  cases hl : lookupIndex s.orders m.orderId with
  | none => rfl
  | some v =>
      obtain ⟨o, loc⟩ := v
      dsimp only
      apply MatchOrders_stable
      exact AddOrder_noCross _ _ (CancelOrder_inv s m.orderId hinv).2.2

/-- C3 witness: on the reachable two-sided book, modifying live id 2 returns no
trades and leaves exactly the cancel-then-resubmit book. -/
theorem claim_C3_witness :
    Reachable bookTwoSided ∧
    OrderBook.ModifyOrder bookTwoSided ⟨2, Side.Buy, 3, 100⟩
      = ([], ((bookTwoSided.CancelOrder 2).AddOrder
            (OrderModify.ToOrderPointer ⟨2, Side.Buy, 3, 100⟩ OrderType.GoodTillCancel)).2) := by
  constructor
  · exact ⟨_, rfl⟩
  · rw [claim_C3_modify_amended bookTwoSided ⟨_, rfl⟩ ⟨2, Side.Buy, 3, 100⟩]
    decide

theorem Shrinks_refl (r : Resting) : Shrinks r r :=
  ⟨rfl, rfl, le_refl _⟩

theorem Shrinks_trans (a b c : Resting) (h1 : Shrinks a b) (h2 : Shrinks b c) : Shrinks a c := by
  obtain ⟨e1, e2, e3⟩ := h1
  obtain ⟨f1, f2, f3⟩ := h2
  exact ⟨e1.trans f1, e2.trans f2, e3.trans f3⟩

theorem mem_queuesOrders (r : Resting) :
    ∀ ls : Levels, r ∈ queuesOrders ls ↔ ∃ p q, (p, q) ∈ ls ∧ r ∈ q := by
  intro ls
  induction ls with
  | nil => simp [queuesOrders]
  | cons l rest ih =>
      obtain ⟨p, q⟩ := l
      simp only [queuesOrders, List.mem_append, ih, List.mem_cons]
      constructor
      · rintro (hq | ⟨pa, qa, hm, hr⟩)
        · exact ⟨p, q, Or.inl rfl, hq⟩
        · exact ⟨pa, qa, Or.inr hm, hr⟩
      · rintro ⟨pa, qa, hm | hm, hr⟩
        · simp only [Prod.mk.injEq] at hm
          obtain ⟨rfl, rfl⟩ := hm
          exact Or.inl hr
        · exact Or.inr ⟨pa, qa, hm, hr⟩

theorem insertLevelBy_queues_perm (cmp : Int → Int → Bool) (price : Int) (x : Resting) :
    ∀ ls : Levels, (queuesOrders (insertLevelBy cmp price x ls)).Perm (x :: queuesOrders ls) := by
  intro ls
  induction ls with
  | nil =>
      simp only [insertLevelBy, queuesOrders, List.append_nil]
      exact List.Perm.refl _
  | cons l rest ih =>
      obtain ⟨p, q⟩ := l
      unfold insertLevelBy
      by_cases h1 : price = p
      · rw [if_pos h1]
        simp only [queuesOrders]
        have harr : (q ++ [x]) ++ queuesOrders rest = q ++ x :: queuesOrders rest := by
          simp
        rw [harr]
        exact List.perm_middle
      · rw [if_neg h1]
        by_cases h2 : cmp price p = true
        · rw [if_pos h2]
          simp only [queuesOrders]
          exact List.Perm.refl _
        · rw [if_neg h2]
          simp only [queuesOrders]
          exact (List.Perm.append_left q ih).trans List.perm_middle

theorem eraseFromLevels_queues (price : Int) (seq : Nat) :
    ∀ ls : Levels, (queuesOrders (eraseFromLevels price seq ls)).Sublist (queuesOrders ls) := by
  intro ls
  induction ls with
  | nil => simp [eraseFromLevels, queuesOrders]
  | cons l rest ih =>
      obtain ⟨p, q⟩ := l
      unfold eraseFromLevels
      by_cases h1 : p = price
      · rw [if_pos h1]
        by_cases h2 : (q.filter (fun r => r.1 ≠ seq)).isEmpty = true
        · rw [if_pos h2]
          simp only [queuesOrders]
          exact List.sublist_append_right _ _
        · rw [if_neg h2]
          simp only [queuesOrders]
          exact List.Sublist.append (List.filter_sublist _) (List.Sublist.refl _)
      · rw [if_neg h1]
        simp only [queuesOrders]
        exact List.Sublist.append (List.Sublist.refl _) ih

theorem innerLoopF_seqs (fuel : Nat) :
    ∀ (bq aq : List Resting) (idx : List IndexEntry) (tr : List Trade),
      ((innerLoopF fuel bq aq idx tr).bidQueue.map Prod.fst).IsSuffix (bq.map Prod.fst)
      ∧ ((innerLoopF fuel bq aq idx tr).askQueue.map Prod.fst).IsSuffix (aq.map Prod.fst) := by
  induction fuel with
  | zero =>
      intro bq aq idx tr
      exact ⟨List.suffix_refl _, List.suffix_refl _⟩
  | succ fuel ih =>
      intro bq aq idx tr
      cases bq with
      | nil => exact ⟨List.suffix_refl _, List.suffix_refl _⟩
      | cons b bt =>
          cases aq with
          | nil => exact ⟨List.suffix_refl _, List.suffix_refl _⟩
          | cons a atl =>
              obtain ⟨bseq, bo⟩ := b
              obtain ⟨aseq, ao⟩ := a
              have hb : bo.Fill (min bo.remainingQuantity ao.remainingQuantity)
                  = some { bo with remainingQuantity :=
                      bo.remainingQuantity - min bo.remainingQuantity ao.remainingQuantity } := by
                unfold Order.Fill
                rw [if_neg]
                omega
              have ha : ao.Fill (min bo.remainingQuantity ao.remainingQuantity)
                  = some { ao with remainingQuantity :=
                      ao.remainingQuantity - min bo.remainingQuantity ao.remainingQuantity } := by
                unfold Order.Fill
                rw [if_neg]
                omega
              simp only [innerLoopF, hb, ha, Order.isFilled, beq_iff_eq]
              by_cases hbf : bo.remainingQuantity
                  - min bo.remainingQuantity ao.remainingQuantity = 0
              · by_cases haf : ao.remainingQuantity
                    - min bo.remainingQuantity ao.remainingQuantity = 0
                · simp only [hbf, haf, if_true]
                  refine ⟨(ih _ _ _ _).1.trans ?_, (ih _ _ _ _).2.trans ?_⟩
                  · exact (List.suffix_cons bseq _)
                  · exact (List.suffix_cons aseq _)
                · simp only [hbf, haf, if_true, if_false]
                  refine ⟨(ih _ _ _ _).1.trans ?_, (ih _ _ _ _).2.trans ?_⟩
                  · exact (List.suffix_cons bseq _)
                  · simp only [List.map_cons]
                    exact List.suffix_refl _
              · by_cases haf : ao.remainingQuantity
                    - min bo.remainingQuantity ao.remainingQuantity = 0
                · simp only [hbf, haf, if_true, if_false]
                  refine ⟨(ih _ _ _ _).1.trans ?_, (ih _ _ _ _).2.trans ?_⟩
                  · simp only [List.map_cons]
                    exact List.suffix_refl _
                  · exact (List.suffix_cons aseq _)
                · exfalso
                  omega

theorem innerLoopF_evolve (fuel : Nat) :
    ∀ (bq aq : List Resting) (idx : List IndexEntry) (tr : List Trade),
      (∀ r ∈ bq, 0 ≤ r.2.remainingQuantity) →
      (∀ r ∈ aq, 0 ≤ r.2.remainingQuantity) →
      (∀ r' ∈ (innerLoopF fuel bq aq idx tr).bidQueue,
          0 ≤ r'.2.remainingQuantity ∧ ∃ r ∈ bq, Shrinks r' r)
      ∧ (∀ r' ∈ (innerLoopF fuel bq aq idx tr).askQueue,
          0 ≤ r'.2.remainingQuantity ∧ ∃ r ∈ aq, Shrinks r' r) := by
  induction fuel with
  | zero =>
      intro bq aq idx tr hbq haq
      exact ⟨fun r' hr' => ⟨hbq r' hr', r', hr', Shrinks_refl r'⟩,
             fun r' hr' => ⟨haq r' hr', r', hr', Shrinks_refl r'⟩⟩
  | succ fuel ih =>
      intro bq aq idx tr hbq haq
      cases bq with
      | nil =>
          exact ⟨fun r' hr' => ⟨hbq r' hr', r', hr', Shrinks_refl r'⟩,
                 fun r' hr' => ⟨haq r' hr', r', hr', Shrinks_refl r'⟩⟩
      | cons b bt =>
          cases aq with
          | nil =>
              exact ⟨fun r' hr' => ⟨hbq r' hr', r', hr', Shrinks_refl r'⟩,
                     fun r' hr' => ⟨haq r' hr', r', hr', Shrinks_refl r'⟩⟩
          | cons a atl =>
              obtain ⟨bseq, bo⟩ := b
              obtain ⟨aseq, ao⟩ := a
              have hbo0 : 0 ≤ bo.remainingQuantity := hbq (bseq, bo) (by simp)
              have hao0 : 0 ≤ ao.remainingQuantity := haq (aseq, ao) (by simp)
              set q : Int := min bo.remainingQuantity ao.remainingQuantity with hqdef
              set bo' : Order := { bo with remainingQuantity := bo.remainingQuantity - q }
                with hbodef
              set ao' : Order := { ao with remainingQuantity := ao.remainingQuantity - q }
                with haodef
              have hborem : bo'.remainingQuantity = bo.remainingQuantity - q := by
                rw [hbodef]
              have haorem : ao'.remainingQuantity = ao.remainingQuantity - q := by
                rw [haodef]
              have hb : bo.Fill q = some bo' := by
                rw [hbodef]
                unfold Order.Fill
                rw [if_neg]
                omega
              have ha : ao.Fill q = some ao' := by
                rw [haodef]
                unfold Order.Fill
                rw [if_neg]
                omega
              have hbshrink : Shrinks (bseq, bo') (bseq, bo) := by
                refine ⟨rfl, ?_, ?_⟩
                · rw [hbodef]
                · dsimp only
                  omega
              have hashrink : Shrinks (aseq, ao') (aseq, ao) := by
                refine ⟨rfl, ?_, ?_⟩
                · rw [haodef]
                · dsimp only
                  omega
              have hbq' : ∀ r ∈ (bseq, bo') :: bt, 0 ≤ r.2.remainingQuantity := by
                intro r hr
                rcases List.mem_cons.mp hr with hr | hr
                · rw [hr]
                  dsimp only
                  omega
                · exact hbq r (List.mem_cons_of_mem _ hr)
              have haq' : ∀ r ∈ (aseq, ao') :: atl, 0 ≤ r.2.remainingQuantity := by
                intro r hr
                rcases List.mem_cons.mp hr with hr | hr
                · rw [hr]
                  dsimp only
                  omega
                · exact haq r (List.mem_cons_of_mem _ hr)
              have hbt : ∀ r ∈ bt, 0 ≤ r.2.remainingQuantity :=
                fun r hr => hbq r (List.mem_cons_of_mem _ hr)
              have hat : ∀ r ∈ atl, 0 ≤ r.2.remainingQuantity :=
                fun r hr => haq r (List.mem_cons_of_mem _ hr)
              simp only [innerLoopF, hb, ha, Order.isFilled, beq_iff_eq]
              by_cases hbf : bo.remainingQuantity - q = 0
              · by_cases haf : ao.remainingQuantity - q = 0
                · simp only [hbf, haf, if_true]
                  obtain ⟨ih1, ih2⟩ := ih bt atl _ _ hbt hat
                  constructor
                  · intro r' hr'
                    obtain ⟨h0, r, hrm, hsh⟩ := ih1 r' hr'
                    exact ⟨h0, r, List.mem_cons_of_mem _ hrm, hsh⟩
                  · intro r' hr'
                    obtain ⟨h0, r, hrm, hsh⟩ := ih2 r' hr'
                    exact ⟨h0, r, List.mem_cons_of_mem _ hrm, hsh⟩
                · simp only [hbf, haf, if_true, if_false]
                  obtain ⟨ih1, ih2⟩ := ih bt ((aseq, ao') :: atl) _ _ hbt haq'
                  constructor
                  · intro r' hr'
                    obtain ⟨h0, r, hrm, hsh⟩ := ih1 r' hr'
                    exact ⟨h0, r, List.mem_cons_of_mem _ hrm, hsh⟩
                  · intro r' hr'
                    obtain ⟨h0, r, hrm, hsh⟩ := ih2 r' hr'
                    rcases List.mem_cons.mp hrm with hrm | hrm
                    · rw [hrm] at hsh
                      exact ⟨h0, (aseq, ao), by simp, Shrinks_trans _ _ _ hsh hashrink⟩
                    · exact ⟨h0, r, List.mem_cons_of_mem _ hrm, hsh⟩
              · by_cases haf : ao.remainingQuantity - q = 0
                · simp only [hbf, haf, if_true, if_false]
                  obtain ⟨ih1, ih2⟩ := ih ((bseq, bo') :: bt) atl _ _ hbq' hat
                  constructor
                  · intro r' hr'
                    obtain ⟨h0, r, hrm, hsh⟩ := ih1 r' hr'
                    rcases List.mem_cons.mp hrm with hrm | hrm
                    · rw [hrm] at hsh
                      exact ⟨h0, (bseq, bo), by simp, Shrinks_trans _ _ _ hsh hbshrink⟩
                    · exact ⟨h0, r, List.mem_cons_of_mem _ hrm, hsh⟩
                  · intro r' hr'
                    obtain ⟨h0, r, hrm, hsh⟩ := ih2 r' hr'
                    exact ⟨h0, r, List.mem_cons_of_mem _ hrm, hsh⟩
                · exfalso
                  omega

theorem disposeBidB_nextSeq (s : OrderBook) : (OrderBook.disposeBidB s).nextSeq = s.nextSeq := by
  unfold OrderBook.disposeBidB
  split <;> rfl

theorem disposeAskB_nextSeq (s : OrderBook) : (OrderBook.disposeAskB s).nextSeq = s.nextSeq := by
  unfold OrderBook.disposeAskB
  split <;> rfl

theorem matchBody_nextSeq (s : OrderBook) (tr : List Trade) :
    (s.matchBody tr).1.nextSeq = s.nextSeq := by
  obtain ⟨bids, asks, idx, n⟩ := s
  cases bids with
  | nil => rfl
  | cons bl brest =>
      obtain ⟨bp, bq⟩ := bl
      cases asks with
      | nil => rfl
      | cons al arest =>
          obtain ⟨ap, aq⟩ := al
          unfold OrderBook.matchBody
          simp only [disposeBid_eq_disposeBidB, disposeAsk_eq_disposeAskB]
          by_cases hbe : (innerLoopF (bq.length + aq.length + 1) bq aq idx tr).bidQueue.isEmpty
              = true
          · by_cases hae : (innerLoopF (bq.length + aq.length + 1) bq aq idx tr).askQueue.isEmpty
                = true
            · simp [hbe, hae]
            · simp [hbe, hae, disposeAskB_nextSeq]
          · by_cases hae : (innerLoopF (bq.length + aq.length + 1) bq aq idx tr).askQueue.isEmpty
                = true
            · simp [hbe, hae, disposeBidB_nextSeq]
            · simp [hbe, hae, disposeBidB_nextSeq, disposeAskB_nextSeq]

theorem matchBody_evolve (s : OrderBook) (tr : List Trade)
    (h : ∀ r ∈ allResting s, 0 ≤ r.2.remainingQuantity) :
    ∀ r' ∈ allResting (s.matchBody tr).1,
      0 ≤ r'.2.remainingQuantity ∧ ∃ r ∈ allResting s, Shrinks r' r := by
  obtain ⟨bids, asks, idx, n⟩ := s
  cases bids with
  | nil =>
      intro r' hr'
      exact ⟨h r' hr', r', hr', Shrinks_refl r'⟩
  | cons bl brest =>
      obtain ⟨bp, bq⟩ := bl
      cases asks with
      | nil =>
          intro r' hr'
          exact ⟨h r' hr', r', hr', Shrinks_refl r'⟩
      | cons al arest =>
          obtain ⟨ap, aq⟩ := al
          have hmem : ∀ r,
              (r ∈ bq ∨ r ∈ queuesOrders brest) ∨ (r ∈ aq ∨ r ∈ queuesOrders arest) →
              r ∈ allResting ⟨(bp, bq) :: brest, (ap, aq) :: arest, idx, n⟩ := by
            intro r hr
            simp only [allResting, queuesOrders, List.mem_append]
            exact hr
          have hbqn : ∀ r ∈ bq, 0 ≤ r.2.remainingQuantity :=
            fun r hr => h r (hmem r (Or.inl (Or.inl hr)))
          have haqn : ∀ r ∈ aq, 0 ≤ r.2.remainingQuantity :=
            fun r hr => h r (hmem r (Or.inr (Or.inl hr)))
          have hevol := innerLoopF_evolve (bq.length + aq.length + 1) bq aq idx tr hbqn haqn
          intro r' hr'
          simp only [allResting, List.mem_append] at hr'
          rw [matchBody_bids, matchBody_asks] at hr'
          rcases hr' with hr' | hr'
          · by_cases hbe : (innerLoopF (bq.length + aq.length + 1) bq aq idx tr).bidQueue.isEmpty
                = true
            · rw [if_pos hbe] at hr'
              exact ⟨h r' (hmem r' (Or.inl (Or.inr hr'))), r',
                hmem r' (Or.inl (Or.inr hr')), Shrinks_refl r'⟩
            · rw [if_neg hbe] at hr'
              simp only [queuesOrders, List.mem_append] at hr'
              rcases hr' with hr' | hr'
              · obtain ⟨h0, r, hrm, hsh⟩ := hevol.1 r' hr'
                exact ⟨h0, r, hmem r (Or.inl (Or.inl hrm)), hsh⟩
              · exact ⟨h r' (hmem r' (Or.inl (Or.inr hr'))), r',
                  hmem r' (Or.inl (Or.inr hr')), Shrinks_refl r'⟩
          · by_cases hae : (innerLoopF (bq.length + aq.length + 1) bq aq idx tr).askQueue.isEmpty
                = true
            · rw [if_pos hae] at hr'
              exact ⟨h r' (hmem r' (Or.inr (Or.inr hr'))), r',
                hmem r' (Or.inr (Or.inr hr')), Shrinks_refl r'⟩
            · rw [if_neg hae] at hr'
              simp only [queuesOrders, List.mem_append] at hr'
              rcases hr' with hr' | hr'
              · obtain ⟨h0, r, hrm, hsh⟩ := hevol.2 r' hr'
                exact ⟨h0, r, hmem r (Or.inr (Or.inl hrm)), hsh⟩
              · exact ⟨h r' (hmem r' (Or.inr (Or.inr hr'))), r',
                  hmem r' (Or.inr (Or.inr hr')), Shrinks_refl r'⟩

theorem matchBody_seqs (s : OrderBook) (tr : List Trade) :
    ((allResting (s.matchBody tr).1).map Prod.fst).Sublist
      ((allResting s).map Prod.fst) := by
  obtain ⟨bids, asks, idx, n⟩ := s
  cases bids with
  | nil => exact List.Sublist.refl _
  | cons bl brest =>
      obtain ⟨bp, bq⟩ := bl
      cases asks with
      | nil => exact List.Sublist.refl _
      | cons al arest =>
          obtain ⟨ap, aq⟩ := al
          have hseqs := innerLoopF_seqs (bq.length + aq.length + 1) bq aq idx tr
          have hres : allResting ((OrderBook.matchBody ⟨(bp, bq) :: brest,
              (ap, aq) :: arest, idx, n⟩ tr).1)
              = queuesOrders (OrderBook.matchBody ⟨(bp, bq) :: brest,
                  (ap, aq) :: arest, idx, n⟩ tr).1.bids
                ++ queuesOrders (OrderBook.matchBody ⟨(bp, bq) :: brest,
                  (ap, aq) :: arest, idx, n⟩ tr).1.asks := rfl
          rw [hres, matchBody_bids, matchBody_asks]
          simp only [allResting, queuesOrders, List.map_append]
          apply List.Sublist.append
          · by_cases hbe : (innerLoopF (bq.length + aq.length + 1) bq aq idx tr).bidQueue.isEmpty
                = true
            · rw [if_pos hbe]
              exact List.sublist_append_right _ _
            · rw [if_neg hbe]
              simp only [queuesOrders, List.map_append]
              exact List.Sublist.append (hseqs.1.sublist) (List.Sublist.refl _)
          · by_cases hae : (innerLoopF (bq.length + aq.length + 1) bq aq idx tr).askQueue.isEmpty
                = true
            · rw [if_pos hae]
              exact List.sublist_append_right _ _
            · rw [if_neg hae]
              simp only [queuesOrders, List.map_append]
              exact List.Sublist.append (hseqs.2.sublist) (List.Sublist.refl _)

theorem matchLoopF_evolve (fuel : Nat) :
    ∀ (s : OrderBook) (tr tr' : List Trade) (s' : OrderBook),
      OrderBook.matchLoopF fuel s tr = some (tr', s') →
      (∀ r ∈ allResting s, 0 ≤ r.2.remainingQuantity) →
      ∀ r' ∈ allResting s',
        0 ≤ r'.2.remainingQuantity ∧ ∃ r ∈ allResting s, Shrinks r' r := by
  induction fuel with
  | zero =>
      intro s tr tr' s' h
      simp [OrderBook.matchLoopF] at h
  | succ fuel ih =>
      intro s tr tr' s' h hn
      unfold OrderBook.matchLoopF at h
      cases hbl : s.bids with
      | nil =>
          rw [hbl] at h
          simp at h
          rw [← h.2]
          intro r' hr'
          exact ⟨hn r' hr', r', hr', Shrinks_refl r'⟩
      | cons bl brest =>
          obtain ⟨bp, bq⟩ := bl
          cases hal : s.asks with
          | nil =>
              rw [hbl, hal] at h
              simp at h
              rw [← h.2]
              intro r' hr'
              exact ⟨hn r' hr', r', hr', Shrinks_refl r'⟩
          | cons al arest =>
              obtain ⟨ap, aq⟩ := al
              rw [hbl, hal] at h
              dsimp only at h
              by_cases hp : bp < ap
              · rw [if_pos hp] at h
                simp at h
                rw [← h.2]
                intro r' hr'
                exact ⟨hn r' hr', r', hr', Shrinks_refl r'⟩
              · rw [if_neg hp] at h
                have hstep := matchBody_evolve s tr hn
                have hn' : ∀ r ∈ allResting (s.matchBody tr).1, 0 ≤ r.2.remainingQuantity :=
                  fun r hr => (hstep r hr).1
                intro r' hr'
                obtain ⟨h0, r, hrm, hsh⟩ := ih _ _ _ _ h hn' r' hr'
                obtain ⟨_, r₀, hrm₀, hsh₀⟩ := hstep r hrm
                exact ⟨h0, r₀, hrm₀, Shrinks_trans _ _ _ hsh hsh₀⟩

theorem matchLoopF_nextSeq (fuel : Nat) :
    ∀ (s : OrderBook) (tr tr' : List Trade) (s' : OrderBook),
      OrderBook.matchLoopF fuel s tr = some (tr', s') → s'.nextSeq = s.nextSeq := by
  induction fuel with
  | zero =>
      intro s tr tr' s' h
      simp [OrderBook.matchLoopF] at h
  | succ fuel ih =>
      intro s tr tr' s' h
      unfold OrderBook.matchLoopF at h
      cases hbl : s.bids with
      | nil =>
          rw [hbl] at h
          simp at h
          rw [← h.2]
      | cons bl brest =>
          obtain ⟨bp, bq⟩ := bl
          cases hal : s.asks with
          | nil =>
              rw [hbl, hal] at h
              simp at h
              rw [← h.2]
          | cons al arest =>
              obtain ⟨ap, aq⟩ := al
              rw [hbl, hal] at h
              dsimp only at h
              by_cases hp : bp < ap
              · rw [if_pos hp] at h
                simp at h
                rw [← h.2]
              · rw [if_neg hp] at h
                rw [ih _ _ _ _ h, matchBody_nextSeq]

theorem matchLoopF_seqs (fuel : Nat) :
    ∀ (s : OrderBook) (tr tr' : List Trade) (s' : OrderBook),
      OrderBook.matchLoopF fuel s tr = some (tr', s') →
      ((allResting s').map Prod.fst).Sublist ((allResting s).map Prod.fst) := by
  induction fuel with
  | zero =>
      intro s tr tr' s' h
      simp [OrderBook.matchLoopF] at h
  | succ fuel ih =>
      intro s tr tr' s' h
      unfold OrderBook.matchLoopF at h
      cases hbl : s.bids with
      | nil =>
          rw [hbl] at h
          simp at h
          rw [← h.2]
      | cons bl brest =>
          obtain ⟨bp, bq⟩ := bl
          cases hal : s.asks with
          | nil =>
              rw [hbl, hal] at h
              simp at h
              rw [← h.2]
          | cons al arest =>
              obtain ⟨ap, aq⟩ := al
              rw [hbl, hal] at h
              dsimp only at h
              by_cases hp : bp < ap
              · rw [if_pos hp] at h
                simp at h
                rw [← h.2]
              · rw [if_neg hp] at h
                exact (ih _ _ _ _ h).trans (matchBody_seqs s tr)

theorem MatchOrders_evolve (s : OrderBook)
    (hn : ∀ r ∈ allResting s, 0 ≤ r.2.remainingQuantity) :
    ∀ r' ∈ allResting s.MatchOrders.2,
      0 ≤ r'.2.remainingQuantity ∧ ∃ r ∈ allResting s, Shrinks r' r :=
  matchLoopF_evolve (s.levelCount + 1) s [] s.MatchOrders.1 s.MatchOrders.2
    (matchOrders_eq_some s) hn

theorem MatchOrders_nextSeq (s : OrderBook) : s.MatchOrders.2.nextSeq = s.nextSeq :=
  matchLoopF_nextSeq (s.levelCount + 1) s [] s.MatchOrders.1 s.MatchOrders.2
    (matchOrders_eq_some s)

theorem MatchOrders_seqs (s : OrderBook) :
    ((allResting s.MatchOrders.2).map Prod.fst).Sublist ((allResting s).map Prod.fst) :=
  matchLoopF_seqs (s.levelCount + 1) s [] s.MatchOrders.1 s.MatchOrders.2
    (matchOrders_eq_some s)

theorem CancelOrder_resting (s : OrderBook) (orderId : Int) :
    (allResting (s.CancelOrder orderId)).Sublist (allResting s) := by
  rcases CancelOrder_levels s orderId with ⟨h1, h2⟩ | ⟨p, loc, h1, h2⟩ | ⟨p, loc, h1, h2⟩
  · unfold allResting
    rw [h1, h2]
  · unfold allResting
    rw [h1, h2]
    exact List.Sublist.append (eraseFromLevels_queues p loc s.bids) (List.Sublist.refl _)
  · unfold allResting
    rw [h1, h2]
    exact List.Sublist.append (List.Sublist.refl _) (eraseFromLevels_queues p loc s.asks)

theorem CancelOrder_nextSeq (s : OrderBook) (orderId : Int) :
    (s.CancelOrder orderId).nextSeq = s.nextSeq := by
  unfold OrderBook.CancelOrder
  cases lookupIndex s.orders orderId with
  | none => rfl
  | some v =>
      obtain ⟨o, loc⟩ := v
      dsimp only
      by_cases hs : o.side = Side.Buy
      · rw [if_pos hs]
      · rw [if_neg hs]

theorem inserted_resting_perm_buy (ob : Levels) (oa : Levels) (price : Int) (x : Resting) :
    (queuesOrders (insertLevelBy bidCmp price x ob) ++ queuesOrders oa).Perm
      (x :: (queuesOrders ob ++ queuesOrders oa)) :=
  (insertLevelBy_queues_perm bidCmp price x ob).append_right _

theorem inserted_resting_perm_sell (ob : Levels) (oa : Levels) (price : Int) (x : Resting) :
    (queuesOrders ob ++ queuesOrders (insertLevelBy askCmp price x oa)).Perm
      (x :: (queuesOrders ob ++ queuesOrders oa)) :=
  (List.Perm.append_left _ (insertLevelBy_queues_perm askCmp price x oa)).trans
    List.perm_middle

theorem AddOrder_evolve (s : OrderBook) (o : Order)
    (hn : ∀ r ∈ allResting s, 0 ≤ r.2.remainingQuantity)
    (h0 : 0 ≤ o.remainingQuantity) (h1 : o.remainingQuantity ≤ o.initialQuantity) :
    ∀ r' ∈ allResting (s.AddOrder o).2,
      0 ≤ r'.2.remainingQuantity
      ∧ ((∃ r ∈ allResting s, Shrinks r' r)
          ∨ (r'.1 = s.nextSeq ∧ r'.2.remainingQuantity ≤ r'.2.initialQuantity)) := by
  unfold OrderBook.AddOrder
  by_cases hc : containsIndex s.orders o.orderId = true
  · rw [if_pos hc]
    intro r' hr'
    exact ⟨hn r' hr', Or.inl ⟨r', hr', Shrinks_refl r'⟩⟩
  · rw [if_neg hc]
    by_cases hf : (!s.CanMatch o.side o.price && (o.orderType == OrderType.FillAndKill)) = true
    · rw [if_pos hf]
      intro r' hr'
      exact ⟨hn r' hr', Or.inl ⟨r', hr', Shrinks_refl r'⟩⟩
    · rw [if_neg hf]
      by_cases hs : o.side = Side.Buy
      · simp only [hs, if_true]
        intro r' hr'
        have hperm := inserted_resting_perm_buy s.bids s.asks o.price (s.nextSeq, o)
        have hmem : ∀ r, r ∈ allResting
            (⟨insertLevelBy bidCmp o.price (s.nextSeq, o) s.bids, s.asks,
              (o.orderId, o, s.nextSeq) :: s.orders, s.nextSeq + 1⟩ : OrderBook) →
            r = (s.nextSeq, o) ∨ r ∈ allResting s := by
          intro r hr
          have := hperm.mem_iff.mp hr
          simpa [allResting] using this
        have hn₁ : ∀ r ∈ allResting
            (⟨insertLevelBy bidCmp o.price (s.nextSeq, o) s.bids, s.asks,
              (o.orderId, o, s.nextSeq) :: s.orders, s.nextSeq + 1⟩ : OrderBook),
            0 ≤ r.2.remainingQuantity := by
          intro r hr
          rcases hmem r hr with hr | hr
          · rw [hr]
            exact h0
          · exact hn r hr
        obtain ⟨hr0, r, hrm, hsh⟩ := MatchOrders_evolve _ hn₁ r' hr'
        rcases hmem r hrm with hr | hr
        · rw [hr] at hsh
          obtain ⟨e1, e2, e3⟩ := hsh
          exact ⟨hr0, Or.inr ⟨e1, by dsimp only at e2 e3; omega⟩⟩
        · exact ⟨hr0, Or.inl ⟨r, hr, hsh⟩⟩
      · simp only [hs, if_false]
        intro r' hr'
        have hperm := inserted_resting_perm_sell s.bids s.asks o.price (s.nextSeq, o)
        have hmem : ∀ r, r ∈ allResting
            (⟨s.bids, insertLevelBy askCmp o.price (s.nextSeq, o) s.asks,
              (o.orderId, o, s.nextSeq) :: s.orders, s.nextSeq + 1⟩ : OrderBook) →
            r = (s.nextSeq, o) ∨ r ∈ allResting s := by
          intro r hr
          have := hperm.mem_iff.mp hr
          simpa [allResting] using this
        have hn₁ : ∀ r ∈ allResting
            (⟨s.bids, insertLevelBy askCmp o.price (s.nextSeq, o) s.asks,
              (o.orderId, o, s.nextSeq) :: s.orders, s.nextSeq + 1⟩ : OrderBook),
            0 ≤ r.2.remainingQuantity := by
          intro r hr
          rcases hmem r hr with hr | hr
          · rw [hr]
            exact h0
          · exact hn r hr
        obtain ⟨hr0, r, hrm, hsh⟩ := MatchOrders_evolve _ hn₁ r' hr'
        rcases hmem r hrm with hr | hr
        · rw [hr] at hsh
          obtain ⟨e1, e2, e3⟩ := hsh
          exact ⟨hr0, Or.inr ⟨e1, by dsimp only at e2 e3; omega⟩⟩
        · exact ⟨hr0, Or.inl ⟨r, hr, hsh⟩⟩

theorem nodup_keys_unique : ∀ (l : List Resting), (l.map Prod.fst).Nodup →
    ∀ (k : Nat) (a b : Order), (k, a) ∈ l → (k, b) ∈ l → a = b := by
  intro l
  induction l with
  | nil =>
      intro _ k a b ha
      simp at ha
  | cons x xs ih =>
      intro hn k a b ha hb
      simp only [List.map_cons, List.nodup_cons] at hn
      rcases List.mem_cons.mp ha with ha | ha
      · rcases List.mem_cons.mp hb with hb | hb
        · have : (k, a) = (k, b) := ha.trans hb.symm
          simpa using this
        · exfalso
          apply hn.1
          have hx : x.1 = k := by rw [← ha]
          rw [hx]
          exact List.mem_map.mpr ⟨(k, b), hb, rfl⟩
      · rcases List.mem_cons.mp hb with hb | hb
        · exfalso
          apply hn.1
          have hx : x.1 = k := by rw [← hb]
          rw [hx]
          exact List.mem_map.mpr ⟨(k, a), ha, rfl⟩
        · exact ih hn.2 k a b ha hb

theorem MatchOrders_seqInv (s : OrderBook) (h : SeqInv s) : SeqInv s.MatchOrders.2 := by
  obtain ⟨hfresh, hnd⟩ := h
  constructor
  · intro r' hr'
    rw [MatchOrders_nextSeq]
    have hm : r'.1 ∈ (allResting s.MatchOrders.2).map Prod.fst :=
      List.mem_map_of_mem Prod.fst hr'
    have hm' := (MatchOrders_seqs s).subset hm
    obtain ⟨r, hrm, heq⟩ := List.mem_map.mp hm'
    rw [← heq]
    exact hfresh r hrm
  · exact hnd.sublist (MatchOrders_seqs s)

theorem CancelOrder_seqInv (s : OrderBook) (orderId : Int) (h : SeqInv s) :
    SeqInv (s.CancelOrder orderId) := by
  obtain ⟨hfresh, hnd⟩ := h
  constructor
  · intro r' hr'
    rw [CancelOrder_nextSeq]
    exact hfresh r' ((CancelOrder_resting s orderId).subset hr')
  · exact hnd.sublist ((CancelOrder_resting s orderId).map Prod.fst)

theorem AddOrder_seqInv (s : OrderBook) (o : Order) (h : SeqInv s) :
    SeqInv (s.AddOrder o).2 := by
  obtain ⟨hfresh, hnd⟩ := h
  unfold OrderBook.AddOrder
  by_cases hc : containsIndex s.orders o.orderId = true
  · rw [if_pos hc]
    exact ⟨hfresh, hnd⟩
  · rw [if_neg hc]
    by_cases hf : (!s.CanMatch o.side o.price && (o.orderType == OrderType.FillAndKill)) = true
    · rw [if_pos hf]
      exact ⟨hfresh, hnd⟩
    · rw [if_neg hf]
      by_cases hs : o.side = Side.Buy
      · simp only [hs, if_true]
        apply MatchOrders_seqInv
        have hperm := inserted_resting_perm_buy s.bids s.asks o.price (s.nextSeq, o)
        constructor
        · intro r hr
          have := hperm.mem_iff.mp hr
          rcases List.mem_cons.mp this with hr' | hr'
          · rw [hr']
            simp
          · have := hfresh r hr'
            dsimp only
            omega
        · have hnodup : ((s.nextSeq, o) :: allResting s).map Prod.fst |>.Nodup := by
            simp only [List.map_cons, List.nodup_cons]
            refine ⟨?_, hnd⟩
            intro hmem
            obtain ⟨r, hrm, heq⟩ := List.mem_map.mp hmem
            have := hfresh r hrm
            omega
          exact ((hperm.map Prod.fst).nodup_iff).mpr hnodup
      · simp only [hs, if_false]
        apply MatchOrders_seqInv
        have hperm := inserted_resting_perm_sell s.bids s.asks o.price (s.nextSeq, o)
        constructor
        · intro r hr
          have := hperm.mem_iff.mp hr
          rcases List.mem_cons.mp this with hr' | hr'
          · rw [hr']
            simp
          · have := hfresh r hr'
            dsimp only
            omega
        · have hnodup : ((s.nextSeq, o) :: allResting s).map Prod.fst |>.Nodup := by
            simp only [List.map_cons, List.nodup_cons]
            refine ⟨?_, hnd⟩
            intro hmem
            obtain ⟨r, hrm, heq⟩ := List.mem_map.mp hmem
            have := hfresh r hrm
            omega
          exact ((hperm.map Prod.fst).nodup_iff).mpr hnodup

theorem ModifyOrder_seqInv (s : OrderBook) (m : OrderModify) (h : SeqInv s) :
    SeqInv (s.ModifyOrder m).2 := by
  unfold OrderBook.ModifyOrder
  cases hl : lookupIndex s.orders m.orderId with
  | none => exact h
  | some v =>
      obtain ⟨o, loc⟩ := v
      dsimp only
      exact MatchOrders_seqInv _
        (AddOrder_seqInv _ _ (CancelOrder_seqInv s m.orderId h))

theorem applyOp_seqInv (s : OrderBook) (op : Op) (h : SeqInv s) :
    SeqInv (applyOp s op).2 := by
  cases op with
  | add orderId orderType quantity price side => exact AddOrder_seqInv s _ h
  | cancel orderId => exact CancelOrder_seqInv s orderId h
  | modify m => exact ModifyOrder_seqInv s m h

theorem applyOp_evolve (s : OrderBook) (op : Op)
    (hn : ∀ r ∈ allResting s, 0 ≤ r.2.remainingQuantity)
    (hop : opQuantityOk op = true) :
    ∀ r' ∈ allResting (applyOp s op).2,
      0 ≤ r'.2.remainingQuantity
      ∧ ((∃ r ∈ allResting s, Shrinks r' r)
          ∨ (r'.1 = s.nextSeq ∧ r'.2.remainingQuantity ≤ r'.2.initialQuantity)) := by
  cases op with
  | add orderId orderType quantity price side =>
      have hq : (0:Int) ≤ quantity := by simpa [opQuantityOk] using hop
      exact AddOrder_evolve s _ hn hq (le_refl _)
  | cancel orderId =>
      intro r' hr'
      have hmem := (CancelOrder_resting s orderId).subset hr'
      exact ⟨hn r' hmem, Or.inl ⟨r', hmem, Shrinks_refl r'⟩⟩
  | modify m =>
      have hq : (0:Int) ≤ m.quantity := by simpa [opQuantityOk] using hop
      show ∀ r' ∈ allResting (s.ModifyOrder m).2, _
      unfold OrderBook.ModifyOrder
      cases hl : lookupIndex s.orders m.orderId with
      | none =>
          intro r' hr'
          exact ⟨hn r' hr', Or.inl ⟨r', hr', Shrinks_refl r'⟩⟩
      | some v =>
          obtain ⟨o, loc⟩ := v
          dsimp only
          intro r' hr'
          have hn₁ : ∀ r ∈ allResting (s.CancelOrder m.orderId), 0 ≤ r.2.remainingQuantity :=
            fun r hr => hn r ((CancelOrder_resting s m.orderId).subset hr)
          have hadd := AddOrder_evolve (s.CancelOrder m.orderId)
            (m.ToOrderPointer o.orderType) hn₁ hq (le_refl _)
          have hn₂ : ∀ r ∈ allResting
              ((s.CancelOrder m.orderId).AddOrder (m.ToOrderPointer o.orderType)).2,
              0 ≤ r.2.remainingQuantity :=
            fun r hr => (hadd r hr).1
          obtain ⟨h0, r₂, hrm₂, hsh₂⟩ := MatchOrders_evolve _ hn₂ r' hr'
          rcases (hadd r₂ hrm₂).2 with ⟨r₁, hrm₁, hsh₁⟩ | ⟨hseq, hbound⟩
          · exact ⟨h0, Or.inl ⟨r₁, (CancelOrder_resting s m.orderId).subset hrm₁,
              Shrinks_trans _ _ _ hsh₂ hsh₁⟩⟩
          · obtain ⟨e1, e2, e3⟩ := hsh₂
            refine ⟨h0, Or.inr ⟨?_, ?_⟩⟩
            · rw [e1, hseq, CancelOrder_nextSeq]
            · omega

theorem applyOp_qtyOk (s : OrderBook) (op : Op)
    (h : ∀ r ∈ allResting s, 0 ≤ r.2.remainingQuantity ∧
      r.2.remainingQuantity ≤ r.2.initialQuantity)
    (hop : opQuantityOk op = true) :
    ∀ r ∈ allResting (applyOp s op).2,
      0 ≤ r.2.remainingQuantity ∧ r.2.remainingQuantity ≤ r.2.initialQuantity := by
  intro r' hr'
  obtain ⟨h0, hcase⟩ := applyOp_evolve s op (fun r hr => (h r hr).1) hop r' hr'
  rcases hcase with ⟨r, hrm, e1, e2, e3⟩ | ⟨_, hbound⟩
  · have := h r hrm
    exact ⟨h0, by omega⟩
  · exact ⟨h0, hbound⟩

theorem runOps_qtyOk (ops : List Op) : ∀ s : OrderBook,
    (∀ r ∈ allResting s, 0 ≤ r.2.remainingQuantity ∧
      r.2.remainingQuantity ≤ r.2.initialQuantity) →
    (∀ op ∈ ops, opQuantityOk op = true) →
    ∀ r ∈ allResting (runOps s ops),
      0 ≤ r.2.remainingQuantity ∧ r.2.remainingQuantity ≤ r.2.initialQuantity := by
  induction ops with
  | nil => intro s h _; exact h
  | cons op rest ih =>
      intro s h hops
      exact ih _ (applyOp_qtyOk s op h (hops op (by simp)))
        (fun o ho => hops o (List.mem_cons_of_mem _ ho))

theorem runOps_seqInv (ops : List Op) : ∀ s : OrderBook, SeqInv s → SeqInv (runOps s ops) := by
  induction ops with
  | nil => intro s h; exact h
  | cons op rest ih =>
      intro s h
      exact ih _ (applyOp_seqInv s op h)

theorem emptyBook_resting (r : Resting) : r ∈ allResting emptyBook → False := by
  intro hr
  simp [allResting, queuesOrders, emptyBook] at hr

theorem emptyBook_seqInv : SeqInv emptyBook := by
  constructor
  · intro r hr
    exact absurd hr (fun h => emptyBook_resting r h)
  · simp [allResting, queuesOrders, emptyBook]

/-- C8 (amended). When every submitted quantity is nonnegative: (1) every order
resting in a state reached from the empty book satisfies
0 ≤ remaining ≤ initial; (2) across one further call (addOrder, cancelOrder or
modifyOrder, again with nonnegative quantity), the remaining quantity of any
order instance still resting afterwards — identified by its insertion sequence
number — has not increased. Without the nonnegativity restriction the claim is
false (see the counterexample): the code validates nothing, so remaining can
start negative, and crossing a negative-quantity order can even increase the
opposite order's remaining quantity. -/
theorem claim_C8_amended :
    (∀ ops : List Op, (∀ op ∈ ops, opQuantityOk op = true) →
        ∀ r ∈ allResting (runOps emptyBook ops),
          0 ≤ r.2.remainingQuantity ∧ r.2.remainingQuantity ≤ r.2.initialQuantity)
    ∧ (∀ (ops : List Op) (op : Op),
        (∀ o ∈ ops, opQuantityOk o = true) → opQuantityOk op = true →
        ∀ (seq : Nat) (o o' : Order),
          (seq, o) ∈ allResting (runOps emptyBook ops) →
          (seq, o') ∈ allResting (applyOp (runOps emptyBook ops) op).2 →
          o'.remainingQuantity ≤ o.remainingQuantity) := by
  constructor
  · intro ops hops
    exact runOps_qtyOk ops emptyBook
      (fun r hr => absurd hr (fun h => emptyBook_resting r h)) hops
  · intro ops op hops hop seq o o' hpre hpost
    have hqty := runOps_qtyOk ops emptyBook
      (fun r hr => absurd hr (fun h => emptyBook_resting r h)) hops
    have hseq := runOps_seqInv ops emptyBook emptyBook_seqInv
    obtain ⟨h0, hcase⟩ := applyOp_evolve (runOps emptyBook ops) op
      (fun r hr => (hqty r hr).1) hop (seq, o') hpost
    rcases hcase with ⟨r, hrm, hsh⟩ | ⟨he, _⟩
    · obtain ⟨rseq, ro⟩ := r
      obtain ⟨e1, _, e3⟩ := hsh
      dsimp only at e1 e3
      rw [← e1] at hrm
      have := nodup_keys_unique _ hseq.2 seq ro o hrm hpre
      rw [← this]
      exact e3
    · exfalso
      have := hseq.1 (seq, o) hpre
      dsimp only at he this
      omega

/-- C8 witness: on the reachable book holding the GTC sell id 1 (qty 5), the
quantity bounds hold, and submitting a crossing GTC buy of qty 3 leaves the
sell's remaining quantity reduced from 5 to 2 — not increased. -/
theorem claim_C8_witness :
    (∀ op ∈ [Op.add 1 OrderType.GoodTillCancel 5 100 Side.Sell], opQuantityOk op = true)
    ∧ ((0 : Nat), (⟨1, OrderType.GoodTillCancel, 5, 5, 100, Side.Sell⟩ : Order))
        ∈ allResting (runOps emptyBook [Op.add 1 OrderType.GoodTillCancel 5 100 Side.Sell])
    ∧ (0 ≤ (5 : Int) ∧ (5 : Int) ≤ (5 : Int))
    ∧ opQuantityOk (Op.add 2 OrderType.GoodTillCancel 3 101 Side.Buy) = true
    ∧ ((0 : Nat), (⟨1, OrderType.GoodTillCancel, 5, 2, 100, Side.Sell⟩ : Order))
        ∈ allResting (applyOp
            (runOps emptyBook [Op.add 1 OrderType.GoodTillCancel 5 100 Side.Sell])
            (Op.add 2 OrderType.GoodTillCancel 3 101 Side.Buy)).2
    ∧ (⟨1, OrderType.GoodTillCancel, 5, 2, 100, Side.Sell⟩ : Order).remainingQuantity
        ≤ (⟨1, OrderType.GoodTillCancel, 5, 5, 100, Side.Sell⟩ : Order).remainingQuantity := by
  refine ⟨by decide, by decide, ?_, by decide, by decide, ?_⟩
  · exact claim_C8_amended.1 [Op.add 1 OrderType.GoodTillCancel 5 100 Side.Sell] (by decide)
      ((0 : Nat), (⟨1, OrderType.GoodTillCancel, 5, 5, 100, Side.Sell⟩ : Order)) (by decide)
  · exact claim_C8_amended.2 [Op.add 1 OrderType.GoodTillCancel 5 100 Side.Sell]
      (Op.add 2 OrderType.GoodTillCancel 3 101 Side.Buy) (by decide) (by decide) 0
      ⟨1, OrderType.GoodTillCancel, 5, 5, 100, Side.Sell⟩
      ⟨1, OrderType.GoodTillCancel, 5, 2, 100, Side.Sell⟩ (by decide) (by decide)

end OBModel
